import Mathlib

/-!
Verification of the tree workflow engine (`workflow_engine/engines/tree`).

The Python sources are modelled by a shallow embedding:

* Pure data classes (`TreeNode`, `TreeEdge`, `Condition`, `NodeInputData`,
  `ExecutionSummary`) become Lean structures.  Python dicts that preserve
  insertion order are modelled as association lists, Python sets as
  duplicate-free lists grown with `addUnique`.
* Node outputs are dynamically typed in Python (`Any`); every value the
  engine ever stores or compares is used through `str(...)`, so outputs are
  modelled as their stringification, of type `String`.
* Python exceptions are modelled with `Except String`/`Option String`
  (`some msg` = an exception carrying `msg` propagates).
* `re.search` is modelled by an abstract oracle
  `regexSearch : String → String → Bool → Option Bool` (pattern, subject,
  ignore-case flag); `none` models an `re.error` for an invalid pattern.
* The event-driven `asyncio` loop polls `running_tasks` for finished tasks.
  Executors are modelled as pure functions `String → NodeInputData →
  Except String String`, so every created task is immediately "done" at the
  next poll; the loop is embedded with that schedule, plus a fuel argument
  in place of the unbounded `while`.
* The four optional tracking callbacks are modelled by their observable
  effect: a trace of emitted events.
-/

/-- Lookup in an insertion-ordered association list (Python `dict[k]`,
returning `none` where Python raises `KeyError`). -/
def listLookup (l : List (String × α)) (k : String) : Option α :=
  match l.find? (fun p => p.1 == k) with
  | some p => some p.2
  | none => none

/-- Python `d[k] = v`: replace in place if the key exists, else append. -/
def listUpdate (l : List (String × α)) (k : String) (v : α) :
    List (String × α) :=
  match l with
  | [] => [(k, v)]
  | p :: rest =>
    if p.1 == k then (k, v) :: rest else p :: listUpdate rest k v

/-- Python `set.add`: add an element unless already present, so that
`List.length` agrees with the set cardinality `len(...)`. -/
def addUnique (l : List String) (x : String) : List String :=
  if l.contains x then l else l ++ [x]

/-- Substring test: Python's `needle in haystack` on strings. -/
def containsSub (haystack needle : String) : Bool :=
  decide (needle.toList <:+: haystack.toList)

/-- ASCII lower-casing of one character (Python `str.lower`, restricted to
the ASCII range in this model). -/
def lowerChar (c : Char) : Char :=
  if 'A' ≤ c ∧ c ≤ 'Z' then Char.ofNat (c.toNat + 32) else c

/-- Python `s.lower()` on the modelled character range. -/
def toLowerStr (s : String) : String :=
  String.mk (s.toList.map lowerChar)

/-- The whitespace characters matched by the pattern `\s` used in
`Condition.check` (`re.sub(r"\s+", "", ...)`), ASCII range. -/
def isPyWhitespace (c : Char) : Bool :=
  c == ' ' || c == '\t' || c == '\n' || c == '\r' || c == '\x0b' || c == '\x0c'

/-- Removal of all whitespace, the effect of `re.sub(r"\s+", "", s)`. -/
def stripWs (s : String) : String :=
  String.mk (s.toList.filter (fun c => !isPyWhitespace c))

/-- `NodeType` from `workflow_engine/workflow_types.py`: enumeration with
values `start`, `process`, `leaf`. -/
inductive NodeType where
  | START
  | PROCESS
  | LEAF
deriving DecidableEq, Repr

/-- `TreeInputConfig` from `engines/tree/types.py`. -/
structure TreeInputConfig where
  include_prompt : Bool
  include_previous_output : Bool
deriving DecidableEq, Repr

/-- `TreeNode` from `engines/tree/types.py`.  `node_type` is carried as the
parsed enumeration value (`NodeType(data["node_type"])`);
`database_connection` is omitted because nothing in the engine reads it. -/
structure TreeNode where
  id : String
  name : String
  description : String
  prompt : String
  node_type : NodeType
  input_config : TreeInputConfig
deriving DecidableEq, Repr

/-- `Condition` from `engines/tree/types.py`. -/
structure Condition where
  match_target : String
  match_type : String
  match_value : String
  case_sensitive : Bool
deriving DecidableEq, Repr

/-- `TreeEdge` from `engines/tree/types.py`: exactly the three fields
`from_node`, `to_node`, `condition`.  In particular it has **no**
`input_config` field (that flag set lives on `TreeNode`), which is what
makes `_prepare_node_input`'s attribute access fail. -/
structure TreeEdge where
  from_node : String
  to_node : String
  condition : Option Condition
deriving DecidableEq, Repr

/-- `NodeInputData` from `engines/tree/types.py`. -/
structure NodeInputData where
  prompt : Option String := none
  previous_output : Option String := none
deriving DecidableEq, Repr

/-- `ExecutionSummary` from `engines/tree/types.py` (the dataclass fields;
node outputs appear stringified). -/
structure ExecutionSummary where
  workflow_id : String
  workflow_name : String
  completed_count : Nat
  failed_count : Nat := 0
  skipped_count : Nat := 0
  total_count : Nat := 0
  results : List (String × String) := []
  error_message : Option String := none
  type : Option String := none
deriving DecidableEq, Repr

/-- `ExecutionSummary.is_failed`. -/
def ExecutionSummary.is_failed (s : ExecutionSummary) : Bool :=
  decide (0 < s.failed_count) || !s.error_message.isNone

/-- `ExecutionSummary.is_complete`. -/
def ExecutionSummary.is_complete (s : ExecutionSummary) : Bool :=
  decide (s.failed_count = 0) && s.error_message.isNone &&
    decide (0 < s.completed_count)

/-- `TreeWorkflowConfig`: the engine-relevant fields (`nodes` is the
insertion-ordered node map, `edges` the edge list), with node and edge
records already parsed as by `TreeNode.from_dict` / `TreeEdge.from_dict`. -/
structure TreeWorkflowConfig where
  workflow_id : String
  workflow_name : String
  nodes : List (String × TreeNode)
  edges : List TreeEdge
deriving DecidableEq, Repr

/-- The abstract oracle type standing for Python's `re.search`:
`oracle pattern subject ignoreCase = none` models an `re.error` raised for
an invalid pattern, `some b` models a successful unanchored search with
result `b`. -/
abbrev RegexOracle := String → String → Bool → Option Bool

/-- `Condition.check` from `engines/tree/types.py`, lines 148-177,
translated clause by clause: reject a foreign `match_target`, lower-case
both sides when `case_sensitive` is false, then dispatch on `match_type`;
the `regex` arm wraps the oracle's `re.error` (`none`) to `False`. -/
def Condition.check (oracle : RegexOracle) (c : Condition)
    (node_output : String) : Bool :=
  if c.match_target != "node_output" then false
  else
    let output_str := if c.case_sensitive then node_output
      else toLowerStr node_output
    let match_value := if c.case_sensitive then c.match_value
      else toLowerStr c.match_value
    if c.match_type == "contains" then containsSub output_str match_value
    else if c.match_type == "not_contains" then
      !containsSub output_str match_value
    else if c.match_type == "fuzzy" then
      containsSub (stripWs output_str) (stripWs match_value)
    else if c.match_type == "regex" then
      match oracle match_value output_str (!c.case_sensitive) with
      | some b => b
      | none => false
    else false

/-- `TreeWorkflowEngine._default_condition_checker` (engine.py 459-465):
an absent condition is `True`, otherwise defer to `Condition.check`. -/
def defaultConditionChecker (oracle : RegexOracle) (condition : Option Condition)
    (node_output : String) : Bool :=
  match condition with
  | none => true
  | some c => c.check oracle node_output

/-- The condition semantics exactly as the specification claim words them
(claim C4): absent condition is true; otherwise, on the stringified output,
`contains` is occurrence of `match_value`, `not_contains` its negation,
`fuzzy` is occurrence after removing all whitespace from both sides,
`regex` is an unanchored search that yields false on an invalid pattern;
an unknown `match_target` or `match_type` yields false; when
`case_sensitive` is false both sides are compared case-insensitively. -/
def conditionClaimEval (oracle : RegexOracle) (condition : Option Condition)
    (output : String) : Bool :=
  match condition with
  | none => true
  | some c =>
    if c.match_target != "node_output" then false
    else
      let o := if c.case_sensitive then output else toLowerStr output
      let v := if c.case_sensitive then c.match_value
        else toLowerStr c.match_value
      if c.match_type == "contains" then containsSub o v
      else if c.match_type == "not_contains" then !containsSub o v
      else if c.match_type == "fuzzy" then
        containsSub (stripWs o) (stripWs v)
      else if c.match_type == "regex" then
        match oracle v o (!c.case_sensitive) with
        | some b => b
        | none => false
      else false

/-- C4: For every condition descriptor and every predecessor output, the
default condition checker computes exactly the claimed total function:
`true` for an absent condition; otherwise substring containment for
`contains`, its negation for `not_contains`, whitespace-stripped
containment for `fuzzy`, an unanchored regex search mapping an invalid
pattern to `false` for `regex`; `false` for any unknown `match_target` or
`match_type`; with both sides lower-cased when `case_sensitive` is false.
Being a total Lean function into `Bool`, the evaluation never throws: the
only Python exception site, `re.error`, is absorbed into the `false`
branch. -/
theorem condition_check_matches_claim (oracle : RegexOracle)
    (condition : Option Condition) (output : String) :
    defaultConditionChecker oracle condition output =
      conditionClaimEval oracle condition output := by
  cases condition with
  | none => rfl
  | some c => rfl

/-- Successor list of a node in the execution graph: the `to_node` fields
of `graph.get(node_id, [])` as built by `_build_execution_graph` (the
adjacency dict keyed by `from_node`, preserving edge-list order). -/
def succList (edges : List TreeEdge) (u : String) : List String :=
  (edges.filter (fun e => e.from_node == u)).map (fun e => e.to_node)

/-- The state dict of `_has_cycle`: node id ↦ colour (0 unvisited, 1 being
visited, 2 visited); `none` for a key not in the dict (`KeyError`). -/
def CycleState := String → Option Nat

/-- `{node_id: 0 for node_id in self.nodes.keys()}`. -/
def cycleStateInit (nodes : List (String × TreeNode)) : CycleState :=
  fun x => if (nodes.map Prod.fst).contains x then some 0 else none

/-- `state[u] = v`. -/
def cycleStateUpdate (st : CycleState) (u : String) (v : Nat) : CycleState :=
  fun x => if x = u then some v else st x

/-- The message of the `KeyError` raised when `_has_cycle` indexes `state`
with an id that is not a node key. -/
def keyErrorMsg (k : String) : String := "KeyError: " ++ k

/-- Fuel exhaustion marker for the embedded recursion; proved unreachable
for the executions the theorems below speak about. -/
def fuelErrorMsg : String := "RecursionError"

/-- The `for edge in graph.get(node_id, []): if dfs(edge.to_node): return
True` loop of `_has_cycle.dfs`, parameterised by the recursive call. -/
def dfsChildren (rec : String → CycleState → Except String (Bool × CycleState)) :
    List String → CycleState → Except String (Bool × CycleState)
  | [], st => .ok (false, st)
  | v :: vs, st =>
    match rec v st with
    | .error e => .error e
    | .ok (true, st1) => .ok (true, st1)
    | .ok (false, st1) => dfsChildren rec vs st1

/-- `_has_cycle.dfs` (engine.py 231-245): return `True` on a grey node,
`False` on a black one, otherwise mark grey, recurse into the successors
(short-circuiting on `True`), then mark black. Python's implicit recursion
bound is made explicit with fuel. -/
def dfsVisit (edges : List TreeEdge) :
    Nat → String → CycleState → Except String (Bool × CycleState)
  | 0, _, _ => .error fuelErrorMsg
  | f + 1, u, st =>
    match st u with
    | none => .error (keyErrorMsg u)
    | some 1 => .ok (true, st)
    | some (_ + 2) => .ok (false, st)
    | some 0 =>
      let st1 := cycleStateUpdate st u 1
      match dfsChildren (dfsVisit edges f) (succList edges u) st1 with
      | .error e => .error e
      | .ok (true, st2) => .ok (true, st2)
      | .ok (false, st2) => .ok (false, cycleStateUpdate st2 u 2)

/-- The outer loop of `_has_cycle` (engine.py 247-251): run `dfs` from
every node still unvisited, short-circuiting on `True`. -/
def hasCycleLoop (edges : List TreeEdge) (fuel : Nat) :
    List String → CycleState → Except String Bool
  | [], _ => .ok false
  | n :: ns, st =>
    match st n with
    | none => .error (keyErrorMsg n)
    | some 0 =>
      match dfsVisit edges fuel n st with
      | .error e => .error e
      | .ok (true, _) => .ok true
      | .ok (false, st1) => hasCycleLoop edges fuel ns st1
    | some (_ + 1) => hasCycleLoop edges fuel ns st

/-- `_has_cycle(graph)`.  The fuel `nodes.length + 1` strictly dominates
the depth of Python's recursion, which greys a fresh node at every nested
`dfs` call (proved below as `dfsVisit_noFuelError`). -/
def hasCycle (nodes : List (String × TreeNode)) (edges : List TreeEdge) :
    Except String Bool :=
  hasCycleLoop edges (nodes.length + 1) (nodes.map Prod.fst)
    (cycleStateInit nodes)

/-- The message of the `TreeCycleError` raised by
`_build_execution_graph`. -/
def cycleErrorMsg : String := "TreeCycleError: 检测到环路，树形工作流不允许环路"

/-- The engine fields `_initialize_from_config` leaves behind on success:
the parsed node map and edge list (the adjacency dict `outgoing_edges` is
recomputed from `edges` by `outgoingEdges` below, with identical content
and order). -/
structure EngineGraph where
  workflow_id : String
  workflow_name : String
  nodes : List (String × TreeNode)
  edges : List TreeEdge
deriving DecidableEq, Repr

/-- `_initialize_from_config` + `_build_execution_graph` (engine.py
202-224): parse nodes and edges, then raise `TreeCycleError` when
`_has_cycle` finds a cycle; an exception escaping `_has_cycle` itself (the
`KeyError` on an unknown `to_node`) propagates unchanged. -/
def initializeFromConfig (cfg : TreeWorkflowConfig) :
    Except String EngineGraph :=
  match hasCycle cfg.nodes cfg.edges with
  | .error e => .error e
  | .ok true => .error cycleErrorMsg
  | .ok false =>
    .ok ⟨cfg.workflow_id, cfg.workflow_name, cfg.nodes, cfg.edges⟩

/-- The edge relation generated by a configuration's edge list: `u` steps
to `v` when some edge leads from `u` to `v`. -/
def edgeStep (edges : List TreeEdge) (u v : String) : Prop :=
  v ∈ succList edges u

/-- A dummy node record used by concrete test configurations. -/
def mkNode (i : String) (t : NodeType) (ip ipo : Bool) : TreeNode :=
  { id := i, name := i, description := "d", prompt := "p" ++ i,
    node_type := t, input_config := ⟨ip, ipo⟩ }

deriving instance DecidableEq for Except

/-- The four optional tracking callbacks, modelled by whether each key is
present in the `tracking_callbacks` dict handed to the engine. -/
structure CallbackKeys where
  onExecutionStart : Bool
  onNodeCompleted : Bool
  onNodeFailed : Bool
  onExecutionFinished : Bool
deriving DecidableEq, Repr

/-- An invocation of a tracking callback, as observed by the caller. -/
inductive TraceEvent where
  | executionStart (workflowId : String) (executionId : Int)
  | nodeCompleted (executionId : Int) (nodeId : String) (result : String)
  | nodeFailed (executionId : Int) (nodeId : String) (error : String)
  | executionFinished (executionId : Int) (summary : ExecutionSummary)
deriving DecidableEq, Repr

/-- The mutable execution state of `BaseWorkflowEngine` (base/engine.py
33-37): `node_results`, `completed_nodes`, `failed_nodes`,
`running_tasks`; plus the trace of callback invocations emitted so far.
A running task is stored with the outcome its executor will deliver. -/
structure EngineState where
  nodeResults : List (String × String)
  completedNodes : List String
  failedNodes : List String
  runningTasks : List (String × Except String String)
  trace : List TraceEvent
deriving DecidableEq, Repr

/-- The state at engine construction: everything empty. -/
def initialEngineState : EngineState :=
  { nodeResults := [], completedNodes := [], failedNodes := [],
    runningTasks := [], trace := [] }

/-- The execution environment: the pluggable node executor
(`set_node_executor`), the regex oracle threaded into the default
condition checker, the provided callback keys, and
`current_execution_id` as set by `set_execution_id` (or still `None`). -/
structure EngineEnv where
  nodeExec : String → NodeInputData → Except String String
  oracle : RegexOracle
  callbacks : CallbackKeys
  currentExecutionId : Option Int

/-- `set_execution_id` (engine.py 568-570). -/
def setExecutionId (env : EngineEnv) (i : Int) : EngineEnv :=
  { env with currentExecutionId := some i }

/-- Python truthiness of `self.current_execution_id`: `None` and `0` are
falsy, every other integer truthy. -/
def truthyId (env : EngineEnv) : Bool :=
  match env.currentExecutionId with
  | none => false
  | some n => n != 0

/-- The integer carried by the callbacks when they fire (they fire only
under `truthyId`, where the id is `some n`). -/
def execIdVal (env : EngineEnv) : Int :=
  match env.currentExecutionId with
  | none => 0
  | some n => n

/-- The `on_execution_start` call site (engine.py 271-283): fires iff the
key is present and the execution id is truthy. -/
def callExecutionStartCallback (wid : String) (env : EngineEnv)
    (st : EngineState) : EngineState :=
  if env.callbacks.onExecutionStart && truthyId env then
    { st with trace := st.trace ++ [.executionStart wid (execIdVal env)] }
  else st

/-- `_call_node_completed_callback` (engine.py 544-554). -/
def callNodeCompletedCallback (env : EngineEnv) (n r : String)
    (st : EngineState) : EngineState :=
  if env.callbacks.onNodeCompleted && truthyId env then
    { st with trace := st.trace ++ [.nodeCompleted (execIdVal env) n r] }
  else st

/-- `_call_node_failed_callback` (engine.py 556-566). -/
def callNodeFailedCallback (env : EngineEnv) (n e : String)
    (st : EngineState) : EngineState :=
  if env.callbacks.onNodeFailed && truthyId env then
    { st with trace := st.trace ++ [.nodeFailed (execIdVal env) n e] }
  else st

/-- The `on_execution_finished` call site (engine.py 307-319). -/
def callExecutionFinishedCallback (env : EngineEnv)
    (summary : ExecutionSummary) (st : EngineState) : EngineState :=
  if env.callbacks.onExecutionFinished && truthyId env then
    { st with trace := st.trace ++ [.executionFinished (execIdVal env) summary] }
  else st

/-- `_mark_node_completed` (base/engine.py 76-80): add to the completed
set, record the result. -/
def markNodeCompleted (st : EngineState) (n r : String) : EngineState :=
  { st with completedNodes := addUnique st.completedNodes n,
            nodeResults := listUpdate st.nodeResults n r }

/-- `_mark_node_failed` (base/engine.py 82-86): add to the failed set and
record `f"ERROR: {error}"` as the node's result. -/
def markNodeFailed (st : EngineState) (n e : String) : EngineState :=
  { st with failedNodes := addUnique st.failedNodes n,
            nodeResults := listUpdate st.nodeResults n ("ERROR: " ++ e) }

/-- The direct predecessors of `node_id` collected by
`_check_all_prerequisites_completed` (engine.py 389-394): the `from_node`
of every edge pointing at it. -/
def predecessorIds (edges : List TreeEdge) (v : String) : List String :=
  (edges.filter (fun e => e.to_node == v)).map (fun e => e.from_node)

/-- `_check_all_prerequisites_completed` (engine.py 387-403): true iff
every direct predecessor is in the completed set. -/
def checkAllPrerequisitesCompleted (g : EngineGraph) (st : EngineState)
    (v : String) : Bool :=
  (predecessorIds g.edges v).all (fun p => st.completedNodes.contains p)

/-- The outgoing adjacency `self.outgoing_edges.get(node_id, [])`. -/
def outgoingEdges (g : EngineGraph) (u : String) : List TreeEdge :=
  g.edges.filter (fun e => e.from_node == u)

/-- The `AttributeError` raised by `_prepare_node_input` (engine.py 408):
its very first statement is `input_config = edge.input_config`, but the
`TreeEdge` dataclass has no `input_config` attribute (the flags live on
`TreeNode`), so the access raises before any of the input assembly on
lines 410-420 can run. -/
def inputConfigAttributeErrorMsg : String :=
  "AttributeError: 'TreeEdge' object has no attribute 'input_config'"

/-- `_prepare_node_input` (engine.py 405-420) as it actually executes:
the attribute access on line 408 raises unconditionally, making the
prompt/previous-output assembly below it dead code. -/
def prepareNodeInput (_g : EngineGraph) (_st : EngineState)
    (_nodeId : String) (_edge : TreeEdge) : Except String NodeInputData :=
  .error inputConfigAttributeErrorMsg

/-- The body of `_try_trigger_next_nodes` (engine.py 351-385) iterating
the outgoing edges of the just-completed node `u`: for each edge, defer
unless all prerequisites of the target completed; then test the edge's
condition on `u`'s recorded output; then skip a target already running or
completed; then prepare its input (which raises, see `prepareNodeInput`)
and otherwise would spawn the executor task. -/
def tryTriggerGo (g : EngineGraph) (env : EngineEnv) (u : String) :
    List TreeEdge → EngineState → EngineState × Option String
  | [], st => (st, none)
  | e :: rest, st =>
    if !checkAllPrerequisitesCompleted g st e.to_node then
      tryTriggerGo g env u rest st
    else
      let condGate : Except String Bool :=
        match e.condition with
        | none => .ok true
        | some c =>
          match listLookup st.nodeResults u with
          | none => .error (keyErrorMsg u)
          | some outp => .ok (c.check env.oracle outp)
      match condGate with
      | .error err => (st, some err)
      | .ok false => tryTriggerGo g env u rest st
      | .ok true =>
        if (st.runningTasks.map Prod.fst).contains e.to_node ||
            st.completedNodes.contains e.to_node then
          tryTriggerGo g env u rest st
        else
          match prepareNodeInput g st e.to_node e with
          | .error err => (st, some err)
          | .ok inp =>
            tryTriggerGo g env u rest
              { st with runningTasks :=
                  st.runningTasks ++ [(e.to_node, env.nodeExec e.to_node inp)] }

/-- `_try_trigger_next_nodes(completed_node_id)`. -/
def tryTriggerNextNodes (g : EngineGraph) (env : EngineEnv) (u : String)
    (st : EngineState) : EngineState × Option String :=
  tryTriggerGo g env u (outgoingEdges g u) st

/-- One finished task handled by the first loop of `_run_execution_loop`
(engine.py 330-340): on success mark completed then emit
`on_node_completed`; on an exception mark failed then emit
`on_node_failed`. -/
def processFinishedTask (env : EngineEnv) (st : EngineState) (n : String)
    (r : Except String String) : EngineState :=
  match r with
  | .ok v => callNodeCompletedCallback env n v (markNodeCompleted st n v)
  | .error e => callNodeFailedCallback env n e (markNodeFailed st n e)

/-- The second loop of `_run_execution_loop` (engine.py 342-345): delete
each finished task from `running_tasks`, then try to trigger its
successors; an exception escaping `_try_trigger_next_nodes` propagates. -/
def triggerPhase (g : EngineGraph) (env : EngineEnv) :
    List String → EngineState → EngineState × Option String
  | [], st => (st, none)
  | n :: ns, st =>
    let st1 := { st with runningTasks :=
        st.runningTasks.filter (fun p => p.1 != n) }
    match tryTriggerNextNodes g env n st1 with
    | (st2, some e) => (st2, some e)
    | (st2, none) => triggerPhase g env ns st2

/-- `_run_execution_loop` (engine.py 323-349): while tasks are running,
collect the finished ones (in this model every created task is already
done, see the header comment), mark each completed or failed, then delete
and trigger.  The unbounded `while` carries explicit fuel. -/
def runExecutionLoop (g : EngineGraph) (env : EngineEnv) :
    Nat → EngineState → EngineState × Option String
  | 0, st => (st, some fuelErrorMsg)
  | f + 1, st =>
    if st.runningTasks.isEmpty then (st, none)
    else
      let finished := st.runningTasks
      let st1 := finished.foldl
        (fun s p => processFinishedTask env s p.1 p.2) st
      match triggerPhase g env (finished.map Prod.fst) st1 with
      | (st2, some e) => (st2, some e)
      | (st2, none) => runExecutionLoop g env f st2

/-- The message of the `ValueError` raised by `execute_workflow` when the
configuration has no START node (engine.py 266-267). -/
def noStartErrorMsg : String := "ValueError: 未找到起始节点"

/-- The start-node seeding loop of `execute_workflow` (engine.py
286-291): run each START node's executor directly (an exception here
propagates out of `execute_workflow` uncaught), mark it completed, emit
`on_node_completed`, and try to trigger its successors. -/
def startPhase (g : EngineGraph) (env : EngineEnv) :
    List String → EngineState → EngineState × Option String
  | [], st => (st, none)
  | s :: rest, st =>
    match env.nodeExec s {} with
    | .error e => (st, some e)
    | .ok r =>
      let st1 := callNodeCompletedCallback env s r (markNodeCompleted st s r)
      match tryTriggerNextNodes g env s st1 with
      | (st2, some e) => (st2, some e)
      | (st2, none) => startPhase g env rest st2

/-- The `ExecutionSummary(...)` construction of `execute_workflow`
(engine.py 299-305): only `workflow_id`, `workflow_name`,
`completed_count`, `total_count` and `results` are passed; `failed_count`,
`skipped_count`, `error_message` and `type` keep their dataclass
defaults. -/
def mkSummary (g : EngineGraph) (st : EngineState) : ExecutionSummary :=
  { workflow_id := g.workflow_id, workflow_name := g.workflow_name,
    completed_count := st.completedNodes.length,
    total_count := g.nodes.length, results := st.nodeResults }

/-- `execute_workflow` (engine.py 255-321): find the START nodes, raise
`ValueError` if there are none, emit `on_execution_start`, seed the START
nodes, run the event loop, build the summary, emit
`on_execution_finished`, and return the summary.  The returned pair is
(final engine state, summary or propagated exception). -/
def executeWorkflow (g : EngineGraph) (env : EngineEnv) :
    EngineState × Except String ExecutionSummary :=
  let startNodes :=
    (g.nodes.filter (fun p => p.2.node_type = NodeType.START)).map Prod.fst
  if startNodes.isEmpty then (initialEngineState, .error noStartErrorMsg)
  else
    let st0 := callExecutionStartCallback g.workflow_id env initialEngineState
    match startPhase g env startNodes st0 with
    | (st, some e) => (st, .error e)
    | (st1, none) =>
      match runExecutionLoop g env (g.nodes.length + 1) st1 with
      | (st, some e) => (st, .error e)
      | (st2, none) =>
        let summary := mkSummary g st2
        (callExecutionFinishedCallback env summary st2, .ok summary)

/-- A regex oracle for test runs whose conditions never use `regex`. -/
def noRegexOracle : RegexOracle := fun _ _ _ => none

/-- A stub executor returning `"out-" ++ nodeId` for every node. -/
def stubExec : String → NodeInputData → Except String String :=
  fun n _ => .ok ("out-" ++ n)

/-- A stub executor raising `"boom"` for every node. -/
def throwExec : String → NodeInputData → Except String String :=
  fun _ _ => .error "boom"

/-- A test environment: stub executor, no callbacks provided, no
execution id set. -/
def envPlain : EngineEnv :=
  { nodeExec := stubExec, oracle := noRegexOracle,
    callbacks := ⟨false, false, false, false⟩, currentExecutionId := none }

/-- A linear two-node workflow `s(START) → m`, unconditioned edge. -/
def gLinear : EngineGraph :=
  { workflow_id := "w1", workflow_name := "W1",
    nodes := [("s", mkNode "s" .START true false),
              ("m", mkNode "m" .PROCESS true true)],
    edges := [⟨"s", "m", none⟩] }

/-- C1: the claimed input assembly never happens: on the first dispatch of
a non-START node the engine raises
`AttributeError: 'TreeEdge' object has no attribute 'input_config'`,
because `_prepare_node_input` reads `edge.input_config` while the
`input_config` flags live on the node.  Concretely, running `s → m` marks
`s` completed and then aborts `execute_workflow` with that exception while
preparing `m`'s input, instead of passing `m` a prompt/previous-output
record. -/
theorem prepare_node_input_attribute_error_on_dispatch :
    executeWorkflow gLinear envPlain =
      ({ nodeResults := [("s", "out-s")], completedNodes := ["s"],
         failedNodes := [], runningTasks := [], trace := [] },
       .error inputConfigAttributeErrorMsg) := rfl

/-- A two-node workflow `s(START) → m` whose edge condition
(`contains "NOMATCH"`) evaluates false on `s`'s output, so `m` is never
dispatched and `execute_workflow` returns a summary without crashing. -/
def gFalseCond : EngineGraph :=
  { workflow_id := "w2", workflow_name := "W2",
    nodes := [("s", mkNode "s" .START true false),
              ("m", mkNode "m" .PROCESS true true)],
    edges := [⟨"s", "m", some ⟨"node_output", "contains", "NOMATCH", true⟩⟩] }

/-- The summary `execute_workflow` returns for `gFalseCond`. -/
def sumFalseCond : ExecutionSummary :=
  { workflow_id := "w2", workflow_name := "W2", completed_count := 1,
    failed_count := 0, skipped_count := 0, total_count := 2,
    results := [("s", "out-s")] }

/-- C2: the returned summary does not account for every node: running
`gFalseCond` leaves node `m` in no terminal state at all —
`completed_count = 1`, `failed_count = 0`, `skipped_count = 0` (the
`ExecutionSummary(...)` call passes only `completed_count` and
`total_count`, so the failed/skipped fields keep their defaults and no
cancelled count even exists) — hence
`total_count ≠ completed + failed + skipped`.  `is_failed` is false and
can never become true through `failed_count`, which is never populated
from `self.failed_nodes`. -/
theorem summary_counts_do_not_account_all_nodes :
    (executeWorkflow gFalseCond envPlain).2 = .ok sumFalseCond ∧
    sumFalseCond.total_count ≠
      sumFalseCond.completed_count + sumFalseCond.failed_count +
        sumFalseCond.skipped_count ∧
    sumFalseCond.is_failed = false := by
  refine ⟨rfl, by decide, rfl⟩

/-- A fan-in workflow: two START nodes `s1`, `s2` feeding `m`, both edges
unconditioned. -/
def gTwoStarts : EngineGraph :=
  { workflow_id := "w3", workflow_name := "W3",
    nodes := [("s1", mkNode "s1" .START true false),
              ("s2", mkNode "s2" .START true false),
              ("m", mkNode "m" .PROCESS true true)],
    edges := [⟨"s1", "m", none⟩, ⟨"s2", "m", none⟩] }

/-- C6: a node all of whose direct predecessors have completed and which
has an incoming edge whose (absent) condition counts as true is *not*
dispatched: in `gTwoStarts`, after `s1` and `s2` complete, triggering `m`
reaches `_prepare_node_input` and aborts the whole execution with the
`AttributeError` of `prepareNodeInput` — `m` never enters
`running_tasks`, and no `skipped` state exists anywhere in the engine (the
summary's `skipped_count` is a never-written default). -/
theorem ready_node_dispatch_crashes :
    executeWorkflow gTwoStarts envPlain =
      ({ nodeResults := [("s1", "out-s1"), ("s2", "out-s2")],
         completedNodes := ["s1", "s2"], failedNodes := [],
         runningTasks := [], trace := [] },
       .error inputConfigAttributeErrorMsg) := rfl

/-- A single START node and no edges. -/
def gSingle : EngineGraph :=
  { workflow_id := "w4", workflow_name := "W4",
    nodes := [("s", mkNode "s" .START true false)], edges := [] }

/-- C7 counterexample: a START node's executor exception is *not*
captured as that node's failure: `execute_workflow` runs START executors
outside any try/except (engine.py 287), so the exception propagates, no
summary is returned, the failed set stays empty and `on_node_failed` is
never emitted (empty trace), refuting the claim's "this holds for every
node, including START nodes". -/
theorem start_node_exception_aborts_execution :
    executeWorkflow gSingle { envPlain with nodeExec := throwExec } =
      (initialEngineState, .error "boom") := rfl

/-- A configuration whose only edge leaves from the unknown id `"b"`. -/
def cfgUnknownFrom : TreeWorkflowConfig :=
  { workflow_id := "w5", workflow_name := "W5",
    nodes := [("a", mkNode "a" .START true false)],
    edges := [⟨"b", "a", none⟩] }

/-- C3 counterexample: construction does *not* fail when an edge endpoint
names a node id absent from the node map: `cfgUnknownFrom`'s edge
`b → a` has the unknown `from_node` `"b"`, yet
`_initialize_from_config` succeeds (the cycle DFS only ever starts from
and indexes real node keys, so the dangling source is never looked up). -/
theorem build_accepts_unknown_from_endpoint :
    initializeFromConfig cfgUnknownFrom =
      .ok ⟨"w5", "W5", [("a", mkNode "a" .START true false)],
           [⟨"b", "a", none⟩]⟩ := rfl

/-- How one `dfs` call may change the colour map: every key is either
untouched or was white (`0`) and is now grey (`1`) or black (`2`). -/
def StEvol (st st2 : CycleState) : Prop :=
  ∀ x, st2 x = st x ∨ (st x = some 0 ∧ (st2 x = some 1 ∨ st2 x = some 2))

theorem stEvol_refl (st : CycleState) : StEvol st st := fun _ => Or.inl rfl

theorem stEvol_trans {st1 st2 st3 : CycleState} (h12 : StEvol st1 st2)
    (h23 : StEvol st2 st3) : StEvol st1 st3 := by
  intro x
  rcases h23 x with h | ⟨hw2, hc3⟩
  · rcases h12 x with h0 | ⟨hw1, hc2⟩
    · exact Or.inl (h.trans h0)
    · exact Or.inr ⟨hw1, h ▸ hc2⟩
  · rcases h12 x with h0 | ⟨hw1, hc2⟩
    · exact Or.inr ⟨h0 ▸ hw2, hc3⟩
    · rcases hc2 with hc2 | hc2 <;> rw [hc2] at hw2 <;> cases hw2

/-- Black in the colour map: any value ≥ 2 (the code writes only 2). -/
def isBlackSt (st : CycleState) (x : String) : Prop :=
  ∃ k, st x = some (k + 2)

theorem stEvol_gray {st st2 : CycleState} (h : StEvol st st2) {x : String}
    (hx : st x = some 1) : st2 x = some 1 := by
  rcases h x with h0 | ⟨hw, _⟩
  · rw [h0, hx]
  · rw [hx] at hw; cases hw

theorem stEvol_black {st st2 : CycleState} (h : StEvol st st2) {x : String}
    (hx : isBlackSt st x) : isBlackSt st2 x := by
  obtain ⟨k, hk⟩ := hx
  rcases h x with h0 | ⟨hw, _⟩
  · exact ⟨k, h0.trans hk⟩
  · rw [hk] at hw; cases hw

theorem stEvol_white_origin {st st2 : CycleState} (h : StEvol st st2)
    {x : String} (hx : st2 x = some 0) : st x = some 0 := by
  rcases h x with h0 | ⟨hw, _⟩
  · rw [← h0, hx]
  · exact hw

theorem stEvol_isSome {st st2 : CycleState} (h : StEvol st st2)
    (x : String) : (st2 x).isSome = (st x).isSome := by
  rcases h x with h0 | ⟨hw, hc⟩
  · rw [h0]
  · rcases hc with hc | hc <;> rw [hc, hw] <;> rfl

/-- `dfsChildren` only composes the evolutions of its `rec` calls. -/
theorem dfsChildren_evol
    (rec : String → CycleState → Except String (Bool × CycleState))
    (hrec : ∀ v st b st2, rec v st = .ok (b, st2) → StEvol st st2) :
    ∀ (l : List String) (st : CycleState) (b : Bool) (st2 : CycleState),
      dfsChildren rec l st = .ok (b, st2) → StEvol st st2 := by
  intro l
  induction l with
  | nil =>
    intro st b st2 h
    simp only [dfsChildren] at h
    cases h
    exact stEvol_refl st
  | cons v vs ih =>
    intro st b st2 h
    simp only [dfsChildren] at h
    cases hv : rec v st with
    | error e => rw [hv] at h; cases h
    | ok p =>
      obtain ⟨bv, st1⟩ := p
      rw [hv] at h
      cases bv with
      | true =>
        simp only at h
        cases h
        exact hrec v st true st2 hv
      | false =>
        simp only at h
        exact stEvol_trans (hrec v st false st1 hv) (ih st1 b st2 h)

/-- Each `dfs` call evolves the colour map monotonically. -/
theorem dfsVisit_evol (edges : List TreeEdge) :
    ∀ (f : Nat) (u : String) (st : CycleState) (b : Bool) (st2 : CycleState),
      dfsVisit edges f u st = .ok (b, st2) → StEvol st st2 := by
  intro f
  induction f with
  | zero => intro u st b st2 h; cases h
  | succ f ih =>
    intro u st b st2 h
    simp only [dfsVisit] at h
    cases hu : st u with
    | none => rw [hu] at h; cases h
    | some k =>
      rw [hu] at h
      match k with
      | 1 =>
        cases h
        exact stEvol_refl st
      | (m + 2) =>
        cases h
        exact stEvol_refl st
      | 0 =>
        simp only at h
        cases hc : dfsChildren (dfsVisit edges f) (succList edges u)
            (cycleStateUpdate st u 1) with
        | error e => rw [hc] at h; cases h
        | ok p =>
          obtain ⟨bc, stc⟩ := p
          rw [hc] at h
          have hevol1 : StEvol st (cycleStateUpdate st u 1) := by
            intro x
            by_cases hx : x = u
            · subst hx
              exact Or.inr ⟨hu, Or.inl (by simp [cycleStateUpdate])⟩
            · exact Or.inl (by simp [cycleStateUpdate, hx])
          have hevol2 : StEvol st stc :=
            stEvol_trans hevol1 (dfsChildren_evol _ (ih) _ _ _ _ hc)
          cases bc with
          | true =>
            simp only at h
            cases h
            exact hevol2
          | false =>
            simp only at h
            cases h
            intro x
            by_cases hx : x = u
            · subst hx
              exact Or.inr ⟨hu, Or.inr (by simp [cycleStateUpdate])⟩
            · have : (cycleStateUpdate stc u 2) x = stc x := by
                simp [cycleStateUpdate, hx]
              rw [this]
              exact hevol2 x

/-- A run of the children loop in which every call returned `False`
introduces no new grey nodes. -/
theorem dfsChildren_noNewGray
    (rec : String → CycleState → Except String (Bool × CycleState))
    (hrec : ∀ v st st2, rec v st = .ok (false, st2) →
      ∀ x, st2 x = some 1 → st x = some 1) :
    ∀ (l : List String) (st st2 : CycleState),
      dfsChildren rec l st = .ok (false, st2) →
      ∀ x, st2 x = some 1 → st x = some 1 := by
  intro l
  induction l with
  | nil =>
    intro st st2 h x hx
    simp only [dfsChildren] at h
    cases h
    exact hx
  | cons v vs ih =>
    intro st st2 h x hx
    simp only [dfsChildren] at h
    cases hv : rec v st with
    | error e => rw [hv] at h; cases h
    | ok p =>
      obtain ⟨bv, st1⟩ := p
      rw [hv] at h
      cases bv with
      | true => simp only at h; cases h
      | false =>
        simp only at h
        exact hrec v st st1 hv x (ih st1 st2 h x hx)

/-- A `dfs` call that returns `False` leaves the grey set unchanged:
every node it greys along the way it also blackens before returning. -/
theorem dfsVisit_noNewGray (edges : List TreeEdge) :
    ∀ (f : Nat) (u : String) (st st2 : CycleState),
      dfsVisit edges f u st = .ok (false, st2) →
      ∀ x, st2 x = some 1 → st x = some 1 := by
  intro f
  induction f with
  | zero => intro u st st2 h; cases h
  | succ f ih =>
    intro u st st2 h x hx
    simp only [dfsVisit] at h
    cases hu : st u with
    | none => rw [hu] at h; cases h
    | some k =>
      rw [hu] at h
      match k with
      | 1 => cases h
      | (m + 2) =>
        cases h
        exact hx
      | 0 =>
        simp only at h
        cases hc : dfsChildren (dfsVisit edges f) (succList edges u)
            (cycleStateUpdate st u 1) with
        | error e => rw [hc] at h; cases h
        | ok p =>
          obtain ⟨bc, stc⟩ := p
          rw [hc] at h
          cases bc with
          | true => simp only at h; cases h
          | false =>
            simp only at h
            cases h
            have hxu : x ≠ u := by
              intro hxu
              subst hxu
              simp [cycleStateUpdate] at hx
            have hstc : stc x = some 1 := by
              simpa [cycleStateUpdate, hxu] using hx
            have h1 : (cycleStateUpdate st u 1) x = some 1 :=
              dfsChildren_noNewGray _ (ih) _ _ _ hc x hstc
            simpa [cycleStateUpdate, hxu] using h1

/-- Soundness of the children loop: if every grey node reaches the parent
`u` and the loop reports `True`, the edge relation has a cycle. -/
theorem dfsChildren_sound (edges : List TreeEdge)
    (rec : String → CycleState → Except String (Bool × CycleState))
    (hS : ∀ v st st2, rec v st = .ok (true, st2) →
      (∀ g, st g = some 1 → Relation.TransGen (edgeStep edges) g v) →
      ∃ c, Relation.TransGen (edgeStep edges) c c)
    (hF : ∀ v st st2, rec v st = .ok (false, st2) →
      ∀ x, st2 x = some 1 → st x = some 1) :
    ∀ (l : List String) (st st2 : CycleState) (u : String),
      (∀ v ∈ l, edgeStep edges u v) →
      (∀ g, st g = some 1 → Relation.ReflTransGen (edgeStep edges) g u) →
      dfsChildren rec l st = .ok (true, st2) →
      ∃ c, Relation.TransGen (edgeStep edges) c c := by
  intro l
  induction l with
  | nil =>
    intro st st2 u _ _ h
    simp only [dfsChildren] at h
    cases h
  | cons v vs ih =>
    intro st st2 u hmem hgray h
    simp only [dfsChildren] at h
    cases hv : rec v st with
    | error e => rw [hv] at h; cases h
    | ok p =>
      obtain ⟨bv, st1⟩ := p
      rw [hv] at h
      cases bv with
      | true =>
        refine hS v st st1 hv ?_
        intro g hg
        exact Relation.TransGen.tail' (hgray g hg) (hmem v (by simp))
      | false =>
        simp only at h
        refine ih st1 st2 u (fun w hw => hmem w (by simp [hw])) ?_ h
        intro g hg
        exact hgray g (hF v st st1 hv g hg)

/-- Soundness of `dfs`: if every grey node can reach the node being
visited and the call reports `True`, the edge relation has a cycle (the
grey node met again closes a path through the call stack). -/
theorem dfsVisit_sound (edges : List TreeEdge) :
    ∀ (f : Nat) (u : String) (st st2 : CycleState),
      dfsVisit edges f u st = .ok (true, st2) →
      (∀ g, st g = some 1 → Relation.TransGen (edgeStep edges) g u) →
      ∃ c, Relation.TransGen (edgeStep edges) c c := by
  intro f
  induction f with
  | zero => intro u st st2 h; cases h
  | succ f ih =>
    intro u st st2 h hgray
    simp only [dfsVisit] at h
    cases hu : st u with
    | none => rw [hu] at h; cases h
    | some k =>
      rw [hu] at h
      match k with
      | 1 => exact ⟨u, hgray u hu⟩
      | (m + 2) => cases h
      | 0 =>
        simp only at h
        cases hc : dfsChildren (dfsVisit edges f) (succList edges u)
            (cycleStateUpdate st u 1) with
        | error e => rw [hc] at h; cases h
        | ok p =>
          obtain ⟨bc, stc⟩ := p
          rw [hc] at h
          cases bc with
          | false => simp only at h; cases h
          | true =>
            refine dfsChildren_sound edges _
              (fun v s s2 hv hg => ih v s s2 hv hg)
              (fun v s s2 hv => dfsVisit_noNewGray edges f v s s2 hv)
              (succList edges u) _ stc u (fun v hv => hv) ?_ hc
            intro g hg
            by_cases hgu : g = u
            · subst hgu
              exact Relation.ReflTransGen.refl
            · have : st g = some 1 := by
                simpa [cycleStateUpdate, hgu] using hg
              exact (hgray g this).to_reflTransGen

/-- Black nodes are closed under the edge relation. -/
def BlackClosed (edges : List TreeEdge) (st : CycleState) : Prop :=
  ∀ b v, isBlackSt st b → edgeStep edges b v → isBlackSt st v

/-- No black node lies on a cycle of the edge relation. -/
def NoBlackCycle (edges : List TreeEdge) (st : CycleState) : Prop :=
  ∀ b, isBlackSt st b → ¬ Relation.TransGen (edgeStep edges) b b

/-- Everything reachable from a black node is black when the black set is
closed. -/
theorem blackClosed_reach {edges : List TreeEdge} {st : CycleState}
    (hbc : BlackClosed edges st) {b w : String}
    (hb : isBlackSt st b)
    (h : Relation.ReflTransGen (edgeStep edges) b w) : isBlackSt st w := by
  induction h with
  | refl => exact hb
  | tail _ hstep ih => exact hbc _ _ ih hstep

/-- Greying a white node changes no black facts. -/
theorem isBlackSt_update_gray {st : CycleState} {u : String}
    (hu : st u = some 0) (x : String) :
    isBlackSt (cycleStateUpdate st u 1) x ↔ isBlackSt st x := by
  unfold isBlackSt cycleStateUpdate
  by_cases hx : x = u
  · subst hx
    simp [hu]
  · simp [hx]

/-- The completeness invariant is preserved by the children loop, and a
loop that reports `False` leaves every listed child black. -/
theorem dfsChildren_good (edges : List TreeEdge)
    (rec : String → CycleState → Except String (Bool × CycleState))
    (hG : ∀ v st b st2, rec v st = .ok (b, st2) →
      BlackClosed edges st → NoBlackCycle edges st →
      (BlackClosed edges st2 ∧ NoBlackCycle edges st2) ∧
        (b = false → isBlackSt st2 v))
    (hE : ∀ v st b st2, rec v st = .ok (b, st2) → StEvol st st2) :
    ∀ (l : List String) (st : CycleState) (b : Bool) (st2 : CycleState),
      BlackClosed edges st → NoBlackCycle edges st →
      dfsChildren rec l st = .ok (b, st2) →
      (BlackClosed edges st2 ∧ NoBlackCycle edges st2) ∧
        (b = false → ∀ v ∈ l, isBlackSt st2 v) := by
  intro l
  induction l with
  | nil =>
    intro st b st2 hbc hnbc h
    simp only [dfsChildren] at h
    cases h
    exact ⟨⟨hbc, hnbc⟩, fun _ v hv => by cases hv⟩
  | cons v vs ih =>
    intro st b st2 hbc hnbc h
    simp only [dfsChildren] at h
    cases hv : rec v st with
    | error e => rw [hv] at h; cases h
    | ok p =>
      obtain ⟨bv, st1⟩ := p
      rw [hv] at h
      obtain ⟨⟨hbc1, hnbc1⟩, hpost⟩ := hG v st bv st1 hv hbc hnbc
      cases bv with
      | true =>
        simp only at h
        cases h
        exact ⟨⟨hbc1, hnbc1⟩, fun hb => by cases hb⟩
      | false =>
        simp only at h
        obtain ⟨hgood2, hblack2⟩ := ih st1 b st2 hbc1 hnbc1 h
        refine ⟨hgood2, fun hb w hw => ?_⟩
        rcases List.mem_cons.mp hw with hw | hw
        · subst hw
          exact stEvol_black (dfsChildren_evol rec hE vs st1 b st2 h)
            (hpost rfl)
        · exact hblack2 hb w hw

/-- The completeness invariant is preserved by `dfs`, and a call that
reports `False` blackens its argument. -/
theorem dfsVisit_good (edges : List TreeEdge) :
    ∀ (f : Nat) (u : String) (st : CycleState) (b : Bool) (st2 : CycleState),
      dfsVisit edges f u st = .ok (b, st2) →
      BlackClosed edges st → NoBlackCycle edges st →
      (BlackClosed edges st2 ∧ NoBlackCycle edges st2) ∧
        (b = false → isBlackSt st2 u) := by
  intro f
  induction f with
  | zero => intro u st b st2 h; cases h
  | succ f ih =>
    intro u st b st2 h hbc hnbc
    simp only [dfsVisit] at h
    cases hu : st u with
    | none => rw [hu] at h; cases h
    | some k =>
      rw [hu] at h
      match k with
      | 1 =>
        cases h
        exact ⟨⟨hbc, hnbc⟩, fun hb => by cases hb⟩
      | (m + 2) =>
        cases h
        exact ⟨⟨hbc, hnbc⟩, fun _ => ⟨m, hu⟩⟩
      | 0 =>
        simp only at h
        have hbc1 : BlackClosed edges (cycleStateUpdate st u 1) := by
          intro b1 v hb1 hstep
          rw [isBlackSt_update_gray hu] at hb1 ⊢
          exact hbc b1 v hb1 hstep
        have hnbc1 : NoBlackCycle edges (cycleStateUpdate st u 1) := by
          intro b1 hb1
          rw [isBlackSt_update_gray hu] at hb1
          exact hnbc b1 hb1
        cases hc : dfsChildren (dfsVisit edges f) (succList edges u)
            (cycleStateUpdate st u 1) with
        | error e => rw [hc] at h; cases h
        | ok p =>
          obtain ⟨bc, stc⟩ := p
          rw [hc] at h
          obtain ⟨⟨hbcc, hnbcc⟩, hblackc⟩ :=
            dfsChildren_good edges _ (fun v s bb s2 hv => ih v s bb s2 hv)
              (fun v s bb s2 hv => dfsVisit_evol edges f v s bb s2 hv)
              (succList edges u) _ bc stc hbc1 hnbc1 hc
          cases bc with
          | true =>
            simp only at h
            cases h
            exact ⟨⟨hbcc, hnbcc⟩, fun hb => by cases hb⟩
          | false =>
            simp only at h
            cases h
            have hgrayc : stc u = some 1 :=
              stEvol_gray (dfsChildren_evol _
                (fun v s bb s2 hv => dfsVisit_evol edges f v s bb s2 hv)
                (succList edges u) _ false stc hc)
                (by simp [cycleStateUpdate])
            have hne_of_black : ∀ x, isBlackSt stc x → x ≠ u := by
              intro x hx hxu
              subst hxu
              obtain ⟨k, hk⟩ := hx
              rw [hgrayc] at hk
              cases hk
            have hblack_pres : ∀ x, isBlackSt stc x →
                isBlackSt (cycleStateUpdate stc u 2) x := by
              intro x hx
              obtain ⟨k, hk⟩ := hx
              exact ⟨k, by
                simp [cycleStateUpdate, hne_of_black x ⟨k, hk⟩, hk]⟩
            have hblack_back : ∀ x, x ≠ u →
                isBlackSt (cycleStateUpdate stc u 2) x → isBlackSt stc x := by
              intro x hx hbx
              obtain ⟨k, hk⟩ := hbx
              exact ⟨k, by simpa [cycleStateUpdate, hx] using hk⟩
            refine ⟨⟨?_, ?_⟩, fun _ => ⟨0, by simp [cycleStateUpdate]⟩⟩
            · intro b1 v hb1 hstep
              by_cases hb1u : b1 = u
              · have hv : isBlackSt stc v := hblackc rfl v (hb1u ▸ hstep)
                exact hblack_pres v hv
              · have hb1c : isBlackSt stc b1 := hblack_back b1 hb1u hb1
                exact hblack_pres v (hbcc b1 v hb1c hstep)
            · intro b1 hb1 hcyc
              by_cases hb1u : b1 = u
              · rw [hb1u] at hcyc
                obtain ⟨v, hstep, hrt⟩ :=
                  Relation.TransGen.head'_iff.mp hcyc
                have hv : isBlackSt stc v := hblackc rfl v hstep
                have hub : isBlackSt stc u := blackClosed_reach hbcc hv hrt
                exact hne_of_black u hub rfl
              · exact hnbcc b1 (hblack_back b1 hb1u hb1) hcyc

/-- The colour map covers exactly the given keys. -/
def DomOf (keys : List String) (st : CycleState) : Prop :=
  ∀ x, (st x).isSome ↔ x ∈ keys

/-- Every edge endpoint names a key of the node map. -/
def ClosedEdges (edges : List TreeEdge) (keys : List String) : Prop :=
  ∀ e ∈ edges, e.from_node ∈ keys ∧ e.to_node ∈ keys

/-- Number of white keys, the termination measure of the DFS. -/
def countWhite (keys : List String) (st : CycleState) : Nat :=
  keys.countP (fun x => st x == some 0)

theorem countP_mono_of_pointwise {l : List String} {p q : String → Bool}
    (h : ∀ x ∈ l, q x = true → p x = true) : l.countP q ≤ l.countP p := by
  induction l with
  | nil => simp
  | cons a l ih =>
    simp only [List.countP_cons]
    have hih : l.countP q ≤ l.countP p :=
      ih (fun x hx => h x (List.mem_cons_of_mem a hx))
    by_cases hq : q a = true
    · have hp : p a = true := h a (by simp) hq
      simp [hq, hp]
      omega
    · have hq' : q a = false := by
        cases hqa : q a
        · rfl
        · exact absurd hqa hq
      by_cases hp : p a = true <;> simp [hq', hp] <;> omega

theorem countP_lt_of_pointwise {l : List String} {p q : String → Bool}
    (h : ∀ x ∈ l, q x = true → p x = true) {u : String} (hu : u ∈ l)
    (hp : p u = true) (hq : q u = false) : l.countP q < l.countP p := by
  induction l with
  | nil => cases hu
  | cons a l ih =>
    simp only [List.countP_cons]
    have hmono : l.countP q ≤ l.countP p :=
      countP_mono_of_pointwise (fun x hx => h x (List.mem_cons_of_mem a hx))
    rcases List.mem_cons.mp hu with hua | hul
    · subst hua
      simp [hp, hq]
      omega
    · have hlt : l.countP q < l.countP p :=
        ih (fun x hx => h x (List.mem_cons_of_mem a hx)) hul
      by_cases hqa : q a = true
      · have hpa : p a = true := h a (by simp) hqa
        simp [hqa, hpa]
        omega
      · have hqa' : q a = false := by
          cases hqa2 : q a
          · rfl
          · exact absurd hqa2 hqa
        by_cases hpa : p a = true <;> simp [hqa', hpa] <;> omega

/-- A state evolution can only shrink the white count. -/
theorem countWhite_mono_evol {keys : List String} {st st2 : CycleState}
    (h : StEvol st st2) : countWhite keys st2 ≤ countWhite keys st := by
  refine countP_mono_of_pointwise ?_
  intro x _ hx
  have : st2 x = some 0 := by simpa using hx
  simpa using stEvol_white_origin h this

/-- Greying a white key strictly shrinks the white count. -/
theorem countWhite_update_gray_lt {keys : List String} {st : CycleState}
    {u : String} (hu : st u = some 0) (hmem : u ∈ keys) :
    countWhite keys (cycleStateUpdate st u 1) < countWhite keys st := by
  refine countP_lt_of_pointwise ?_ hmem (by simpa using hu) ?_
  · intro x _ hx
    have hx2 : cycleStateUpdate st u 1 x = some 0 := by simpa using hx
    by_cases hxu : x = u
    · subst hxu
      simp [cycleStateUpdate] at hx2
    · simp only [cycleStateUpdate, if_neg hxu] at hx2
      simpa using hx2
  · simp [cycleStateUpdate]

/-- Membership in a successor list comes from a concrete edge. -/
theorem succList_mem {edges : List TreeEdge} {u v : String}
    (h : v ∈ succList edges u) :
    ∃ e ∈ edges, e.from_node = u ∧ e.to_node = v := by
  unfold succList at h
  obtain ⟨e, he, hev⟩ := List.mem_map.mp h
  have hef := List.mem_filter.mp he
  exact ⟨e, hef.1, by simpa using hef.2, hev⟩

/-- The children loop cannot fail when every listed child is a real key,
the colour map covers the keys, and the fuel dominates the white count. -/
theorem dfsChildren_noErr (edges : List TreeEdge) (keys : List String)
    (f : Nat)
    (hrec : ∀ u st, DomOf keys st → u ∈ keys → countWhite keys st < f →
      ∃ b st2, dfsVisit edges f u st = .ok (b, st2) ∧ DomOf keys st2) :
    ∀ (l : List String) (st : CycleState), DomOf keys st →
      (∀ v ∈ l, v ∈ keys) → countWhite keys st < f →
      ∃ b st2, dfsChildren (dfsVisit edges f) l st = .ok (b, st2) ∧
        DomOf keys st2 := by
  intro l
  induction l with
  | nil =>
    intro st hdom _ _
    exact ⟨false, st, rfl, hdom⟩
  | cons v vs ih =>
    intro st hdom hmem hcw
    obtain ⟨bv, st1, hv, hdom1⟩ := hrec v st hdom (hmem v (by simp)) hcw
    cases bv with
    | true =>
      exact ⟨true, st1, by simp only [dfsChildren]; rw [hv], hdom1⟩
    | false =>
      have hcw1 : countWhite keys st1 < f :=
        lt_of_le_of_lt
          (countWhite_mono_evol (dfsVisit_evol edges f v st false st1 hv))
          hcw
      obtain ⟨b2, st2, h2, hdom2⟩ :=
        ih st1 hdom1 (fun w hw => hmem w (by simp [hw])) hcw1
      exact ⟨b2, st2, by simp only [dfsChildren]; rw [hv]; exact h2, hdom2⟩

/-- `dfs` cannot fail on a real key of a closed graph when the fuel
dominates the white count. -/
theorem dfsVisit_noErr (edges : List TreeEdge) (keys : List String)
    (hclosed : ClosedEdges edges keys) :
    ∀ (f : Nat) (u : String) (st : CycleState), DomOf keys st → u ∈ keys →
      countWhite keys st < f →
      ∃ b st2, dfsVisit edges f u st = .ok (b, st2) ∧ DomOf keys st2 := by
  intro f
  induction f with
  | zero => intro u st _ _ hcw; omega
  | succ f ih =>
    intro u st hdom hu hcw
    have hsome : (st u).isSome := (hdom u).mpr hu
    cases hstu : st u with
    | none => rw [hstu] at hsome; cases hsome
    | some k =>
      match k with
      | 1 =>
        exact ⟨true, st, by simp only [dfsVisit]; rw [hstu], hdom⟩
      | (m + 2) =>
        exact ⟨false, st, by simp only [dfsVisit]; rw [hstu], hdom⟩
      | 0 =>
        have hdom1 : DomOf keys (cycleStateUpdate st u 1) := by
          intro x
          by_cases hx : x = u
          · subst hx
            simp [cycleStateUpdate, hu]
          · simp only [cycleStateUpdate, if_neg hx]
            exact hdom x
        have hcw1 : countWhite keys (cycleStateUpdate st u 1) < f := by
          have h1 := @countWhite_update_gray_lt keys st u hstu hu
          omega
        have hmemsucc : ∀ v ∈ succList edges u, v ∈ keys := by
          intro v hv
          obtain ⟨e, he, _, hto⟩ := succList_mem hv
          exact hto ▸ (hclosed e he).2
        obtain ⟨bc, stc, hc, hdomc⟩ :=
          dfsChildren_noErr edges keys f ih (succList edges u)
            (cycleStateUpdate st u 1) hdom1 hmemsucc hcw1
        cases bc with
        | true =>
          refine ⟨true, stc, ?_, hdomc⟩
          simp only [dfsVisit]
          rw [hstu]
          simp only
          rw [hc]
        | false =>
          refine ⟨false, cycleStateUpdate stc u 2, ?_, ?_⟩
          · simp only [dfsVisit]
            rw [hstu]
            simp only
            rw [hc]
          · intro x
            by_cases hx : x = u
            · subst hx
              simp [cycleStateUpdate, hu]
            · simp only [cycleStateUpdate, if_neg hx]
              exact hdomc x

/-- No grey nodes at all (true between top-level `dfs` calls). -/
def NoGraySt (st : CycleState) : Prop := ∀ x, st x ≠ some 1

theorem countP_le_len {l : List String} {p : String → Bool} :
    l.countP p ≤ l.length := by
  induction l with
  | nil => simp
  | cons a l ih =>
    simp only [List.countP_cons, List.length_cons]
    by_cases hp : p a = true <;> simp [hp] <;> omega

/-- Soundness of the outer `_has_cycle` loop. -/
theorem hasCycleLoop_sound (edges : List TreeEdge) (fuel : Nat) :
    ∀ (l : List String) (st : CycleState), NoGraySt st →
      hasCycleLoop edges fuel l st = .ok true →
      ∃ c, Relation.TransGen (edgeStep edges) c c := by
  intro l
  induction l with
  | nil =>
    intro st _ h
    simp only [hasCycleLoop] at h
    cases h
  | cons n ns ih =>
    intro st hng h
    simp only [hasCycleLoop] at h
    cases hn : st n with
    | none => rw [hn] at h; cases h
    | some k =>
      rw [hn] at h
      match k with
      | 0 =>
        simp only at h
        cases hv : dfsVisit edges fuel n st with
        | error e => rw [hv] at h; cases h
        | ok p =>
          obtain ⟨bv, st1⟩ := p
          rw [hv] at h
          cases bv with
          | true =>
            refine dfsVisit_sound edges fuel n st st1 hv ?_
            intro g hg
            exact absurd hg (hng g)
          | false =>
            simp only at h
            refine ih st1 ?_ h
            intro x hx
            exact hng x (dfsVisit_noNewGray edges fuel n st st1 hv x hx)
      | (m + 1) =>
        exact ih st hng h

/-- Completeness of the outer `_has_cycle` loop: when it reports `False`
over a closed graph, the edge relation is acyclic. -/
theorem hasCycleLoop_complete (edges : List TreeEdge) (fuel : Nat)
    (keys : List String) (hclosed : ClosedEdges edges keys) :
    ∀ (l : List String) (st : CycleState),
      BlackClosed edges st → NoBlackCycle edges st → NoGraySt st →
      (∀ x ∈ keys, isBlackSt st x ∨ x ∈ l) →
      hasCycleLoop edges fuel l st = .ok false →
      ¬ ∃ c, Relation.TransGen (edgeStep edges) c c := by
  intro l
  induction l with
  | nil =>
    intro st _ hnbc _ hcover _ hcyc
    obtain ⟨c, hc⟩ := hcyc
    obtain ⟨v, hstep, _⟩ := Relation.TransGen.head'_iff.mp hc
    obtain ⟨e, he, hfrom, _⟩ := succList_mem hstep
    have hck : c ∈ keys := hfrom ▸ (hclosed e he).1
    rcases hcover c hck with hb | hmem
    · exact hnbc c hb hc
    · cases hmem
  | cons n ns ih =>
    intro st hbc hnbc hng hcover h
    simp only [hasCycleLoop] at h
    cases hn : st n with
    | none => rw [hn] at h; cases h
    | some k =>
      rw [hn] at h
      match k with
      | 0 =>
        simp only at h
        cases hv : dfsVisit edges fuel n st with
        | error e => rw [hv] at h; cases h
        | ok p =>
          obtain ⟨bv, st1⟩ := p
          rw [hv] at h
          cases bv with
          | true => simp only at h; cases h
          | false =>
            simp only at h
            obtain ⟨⟨hbc1, hnbc1⟩, hpost⟩ :=
              dfsVisit_good edges fuel n st false st1 hv hbc hnbc
            refine ih st1 hbc1 hnbc1 ?_ ?_ h
            · intro x hx
              exact hng x (dfsVisit_noNewGray edges fuel n st st1 hv x hx)
            · intro x hxk
              rcases hcover x hxk with hb | hmem
              · exact Or.inl
                  (stEvol_black (dfsVisit_evol edges fuel n st false st1 hv) hb)
              · rcases List.mem_cons.mp hmem with hxn | hxns
                · exact Or.inl (hxn ▸ hpost rfl)
                · exact Or.inr hxns
      | (m + 1) =>
        have hblackn : isBlackSt st n := by
          match m, hn with
          | 0, hn => exact absurd hn (hng n)
          | (m + 1), hn => exact ⟨m, hn⟩
        refine ih st hbc hnbc hng ?_ h
        intro x hxk
        rcases hcover x hxk with hb | hmem
        · exact Or.inl hb
        · rcases List.mem_cons.mp hmem with hxn | hxns
          · exact Or.inl (hxn ▸ hblackn)
          · exact Or.inr hxns

/-- The outer loop cannot fail over a closed graph with the fuel
`_has_cycle` is given. -/
theorem hasCycleLoop_noErr (edges : List TreeEdge) (keys : List String)
    (hclosed : ClosedEdges edges keys) :
    ∀ (l : List String) (st : CycleState), DomOf keys st →
      (∀ x ∈ l, x ∈ keys) →
      ∃ b, hasCycleLoop edges (keys.length + 1) l st = .ok b := by
  intro l
  induction l with
  | nil => intro st _ _; exact ⟨false, rfl⟩
  | cons n ns ih =>
    intro st hdom hmem
    have hsome : (st n).isSome := (hdom n).mpr (hmem n (by simp))
    cases hn : st n with
    | none => rw [hn] at hsome; cases hsome
    | some k =>
      match k with
      | 0 =>
        have hcw : countWhite keys st < keys.length + 1 :=
          Nat.lt_succ_of_le countP_le_len
        obtain ⟨bv, st1, hv, hdom1⟩ :=
          dfsVisit_noErr edges keys hclosed (keys.length + 1) n st hdom
            (hmem n (by simp)) hcw
        cases bv with
        | true =>
          refine ⟨true, ?_⟩
          simp only [hasCycleLoop]
          rw [hn]
          simp only
          rw [hv]
        | false =>
          obtain ⟨b2, h2⟩ := ih st1 hdom1 (fun x hx => hmem x (by simp [hx]))
          refine ⟨b2, ?_⟩
          simp only [hasCycleLoop]
          rw [hn]
          simp only
          rw [hv]
          exact h2
      | (m + 1) =>
        obtain ⟨b2, h2⟩ := ih st hdom (fun x hx => hmem x (by simp [hx]))
        refine ⟨b2, ?_⟩
        simp only [hasCycleLoop]
        rw [hn]
        exact h2

/-- The initial colour map covers exactly the node keys. -/
theorem cycleStateInit_dom (nodes : List (String × TreeNode)) :
    DomOf (nodes.map Prod.fst) (cycleStateInit nodes) := by
  intro x
  unfold cycleStateInit
  by_cases hx : (nodes.map Prod.fst).contains x
  · simp only [hx, if_pos]
    simpa using List.elem_iff.mp hx
  · rw [if_neg hx]
    simp only [Option.isSome_none]
    constructor
    · intro h; cases h
    · intro h
      exact absurd (List.elem_iff.mpr h) hx

/-- The initial colour map has no black node. -/
theorem cycleStateInit_noBlack (nodes : List (String × TreeNode))
    (x : String) : ¬ isBlackSt (cycleStateInit nodes) x := by
  intro hx
  obtain ⟨k, hk⟩ := hx
  unfold cycleStateInit at hk
  by_cases hc : (nodes.map Prod.fst).contains x <;> simp [hc] at hk

/-- The initial colour map has no grey node. -/
theorem cycleStateInit_noGray (nodes : List (String × TreeNode)) :
    NoGraySt (cycleStateInit nodes) := by
  intro x hx
  unfold cycleStateInit at hx
  by_cases hc : (nodes.map Prod.fst).contains x <;> simp [hc] at hx

/-- Over a closed graph, `_has_cycle` terminates without exception. -/
theorem hasCycle_returns (nodes : List (String × TreeNode))
    (edges : List TreeEdge)
    (hclosed : ClosedEdges edges (nodes.map Prod.fst)) :
    ∃ b, hasCycle nodes edges = .ok b := by
  have hlen : (nodes.map Prod.fst).length = nodes.length := by simp
  unfold hasCycle
  rw [← hlen]
  exact hasCycleLoop_noErr edges (nodes.map Prod.fst) hclosed
    (nodes.map Prod.fst) (cycleStateInit nodes) (cycleStateInit_dom nodes)
    (fun x hx => hx)

/-- `_has_cycle` reporting `True` exhibits a cycle. -/
theorem hasCycle_true_cycle (nodes : List (String × TreeNode))
    (edges : List TreeEdge)
    (h : hasCycle nodes edges = .ok true) :
    ∃ c, Relation.TransGen (edgeStep edges) c c := by
  unfold hasCycle at h
  exact hasCycleLoop_sound edges (nodes.length + 1) (nodes.map Prod.fst)
    (cycleStateInit nodes) (cycleStateInit_noGray nodes) h

/-- `_has_cycle` reporting `False` over a closed graph certifies
acyclicity. -/
theorem hasCycle_false_nocycle (nodes : List (String × TreeNode))
    (edges : List TreeEdge)
    (hclosed : ClosedEdges edges (nodes.map Prod.fst))
    (h : hasCycle nodes edges = .ok false) :
    ¬ ∃ c, Relation.TransGen (edgeStep edges) c c := by
  unfold hasCycle at h
  refine hasCycleLoop_complete edges (nodes.length + 1) (nodes.map Prod.fst)
    hclosed (nodes.map Prod.fst) (cycleStateInit nodes) ?_ ?_
    (cycleStateInit_noGray nodes) ?_ h
  · intro b v hb _
    exact absurd hb (cycleStateInit_noBlack nodes b)
  · intro b hb
    exact absurd hb (cycleStateInit_noBlack nodes b)
  · intro x hx
    exact Or.inr hx

/-- C5: for a configuration whose edge endpoints all name existing nodes,
engine construction raises the `TreeCycleError` exactly when the directed
graph formed by the edges contains a cycle (a node that reaches itself in
one or more steps); in particular a cyclic configuration never reaches
`execute_workflow`, which only a successfully constructed engine can
run. -/
theorem cycle_error_iff_cycle (cfg : TreeWorkflowConfig)
    (hclosed : ClosedEdges cfg.edges (cfg.nodes.map Prod.fst)) :
    initializeFromConfig cfg = .error cycleErrorMsg ↔
      ∃ c, Relation.TransGen (edgeStep cfg.edges) c c := by
  obtain ⟨b, hb⟩ := hasCycle_returns cfg.nodes cfg.edges hclosed
  unfold initializeFromConfig
  rw [hb]
  cases b with
  | true =>
    simp only
    constructor
    · intro _
      exact hasCycle_true_cycle cfg.nodes cfg.edges hb
    · intro _
      trivial
  | false =>
    simp only
    constructor
    · intro h; cases h
    · intro hcyc
      exact absurd hcyc (hasCycle_false_nocycle cfg.nodes cfg.edges hclosed hb)

/-- A concrete cyclic two-node configuration `a ⇄ b`. -/
def cfgCyclic : TreeWorkflowConfig :=
  { workflow_id := "w6", workflow_name := "W6",
    nodes := [("a", mkNode "a" .START true false),
              ("b", mkNode "b" .PROCESS true false)],
    edges := [⟨"a", "b", none⟩, ⟨"b", "a", none⟩] }

/-- Witness for C5 at `cfgCyclic`: the closedness hypothesis holds and
the equivalence applies, with both sides realized — construction raises
the cycle error and `a → b → a` closes a cycle. -/
theorem cycle_error_iff_cycle_witness :
    ClosedEdges cfgCyclic.edges (cfgCyclic.nodes.map Prod.fst) ∧
      (initializeFromConfig cfgCyclic = .error cycleErrorMsg ↔
        ∃ c, Relation.TransGen (edgeStep cfgCyclic.edges) c c) ∧
      initializeFromConfig cfgCyclic = .error cycleErrorMsg := by
  refine ⟨?_, cycle_error_iff_cycle cfgCyclic ?_, rfl⟩ <;>
    · unfold ClosedEdges
      decide

/-- No cycle can exist without edges. -/
theorem no_cycle_of_no_edges :
    ¬ ∃ c, Relation.TransGen (edgeStep ([] : List TreeEdge)) c c := by
  rintro ⟨c, hc⟩
  obtain ⟨v, hstep, _⟩ := Relation.TransGen.head'_iff.mp hc
  unfold edgeStep succList at hstep
  simp at hstep

/-- A configuration with a single non-START node and no edges. -/
def cfgNoStart : TreeWorkflowConfig :=
  { workflow_id := "w7", workflow_name := "W7",
    nodes := [("x", mkNode "x" .PROCESS true false)], edges := [] }

/-- The engine graph `cfgNoStart` constructs to. -/
def gNoStart : EngineGraph :=
  { workflow_id := "w7", workflow_name := "W7",
    nodes := [("x", mkNode "x" .PROCESS true false)], edges := [] }

/-- A configuration whose only edge points at the unknown id `"b"`. -/
def cfgUnknownTo : TreeWorkflowConfig :=
  { workflow_id := "w8", workflow_name := "W8",
    nodes := [("a", mkNode "a" .START true false)],
    edges := [⟨"a", "b", none⟩] }

/-- C3, as the code actually behaves: (1) a configuration without a START
node still constructs successfully, and `execute_workflow` raises the
`ValueError` before any node executes (final state is the untouched
initial state: nothing ran, nothing was recorded, no callback fired);
(2) an edge whose `to_node` is unknown surfaces as an uncaught `KeyError`
from the cycle DFS during construction — not as a dedicated validation
error; (3) construction succeeds for every acyclic configuration whose
edge endpoints all exist (an unknown `from_node`, never reached by the
DFS, is accepted silently — see the counterexample theorem). -/
theorem build_validation_amended :
    (∀ (cfg : TreeWorkflowConfig) (g : EngineGraph) (env : EngineEnv),
      initializeFromConfig cfg = .ok g →
      (∀ p ∈ cfg.nodes, p.2.node_type ≠ NodeType.START) →
      executeWorkflow g env = (initialEngineState, .error noStartErrorMsg)) ∧
    initializeFromConfig cfgUnknownTo = .error (keyErrorMsg "b") ∧
    (∀ cfg : TreeWorkflowConfig,
      ClosedEdges cfg.edges (cfg.nodes.map Prod.fst) →
      (¬ ∃ c, Relation.TransGen (edgeStep cfg.edges) c c) →
      initializeFromConfig cfg =
        .ok ⟨cfg.workflow_id, cfg.workflow_name, cfg.nodes, cfg.edges⟩) := by
  refine ⟨?_, rfl, ?_⟩
  · intro cfg g env hinit hnostart
    have hg : g = ⟨cfg.workflow_id, cfg.workflow_name, cfg.nodes, cfg.edges⟩ := by
      unfold initializeFromConfig at hinit
      cases hc : hasCycle cfg.nodes cfg.edges with
      | error e => rw [hc] at hinit; cases hinit
      | ok b =>
        rw [hc] at hinit
        cases b with
        | true => simp only at hinit; cases hinit
        | false =>
          simp only at hinit
          cases hinit
          rfl
    have hfil : (g.nodes.filter fun p => p.2.node_type = NodeType.START) = [] := by
      refine List.filter_eq_nil_iff.mpr ?_
      intro p hp
      have hp2 : p ∈ cfg.nodes := by rw [hg] at hp; exact hp
      simpa using hnostart p hp2
    unfold executeWorkflow
    rw [hfil]
    rfl
  · intro cfg hclosed hnocyc
    obtain ⟨b, hb⟩ := hasCycle_returns cfg.nodes cfg.edges hclosed
    cases b with
    | true =>
      exact absurd (hasCycle_true_cycle cfg.nodes cfg.edges hb) hnocyc
    | false =>
      unfold initializeFromConfig
      rw [hb]

/-- Witness for C3's amended statement: all three parts applied at
concrete inputs — `cfgNoStart` constructs (part 3 with vacuous closedness
and edgelessness) and then aborts before executing anything, and
`cfgUnknownTo` dies with the `KeyError`. -/
theorem build_validation_amended_witness :
    executeWorkflow gNoStart envPlain =
      (initialEngineState, .error noStartErrorMsg) ∧
    initializeFromConfig cfgNoStart =
      .ok ⟨"w7", "W7", [("x", mkNode "x" .PROCESS true false)], []⟩ ∧
    initializeFromConfig cfgUnknownTo = .error (keyErrorMsg "b") := by
  obtain ⟨h1, h2, h3⟩ := build_validation_amended
  refine ⟨h1 cfgNoStart gNoStart envPlain rfl (by decide), ?_, h2⟩
  exact h3 cfgNoStart (by unfold ClosedEdges; decide) no_cycle_of_no_edges

@[simp] theorem markNodeFailed_runningTasks (st : EngineState) (n e : String) :
    (markNodeFailed st n e).runningTasks = st.runningTasks := rfl

@[simp] theorem markNodeFailed_completedNodes (st : EngineState) (n e : String) :
    (markNodeFailed st n e).completedNodes = st.completedNodes := rfl

@[simp] theorem markNodeFailed_failedNodes (st : EngineState) (n e : String) :
    (markNodeFailed st n e).failedNodes = addUnique st.failedNodes n := rfl

@[simp] theorem markNodeFailed_nodeResults (st : EngineState) (n e : String) :
    (markNodeFailed st n e).nodeResults =
      listUpdate st.nodeResults n ("ERROR: " ++ e) := rfl

@[simp] theorem markNodeFailed_trace (st : EngineState) (n e : String) :
    (markNodeFailed st n e).trace = st.trace := rfl

@[simp] theorem callNodeFailedCallback_runningTasks (env : EngineEnv)
    (n e : String) (st : EngineState) :
    (callNodeFailedCallback env n e st).runningTasks = st.runningTasks := by
  unfold callNodeFailedCallback
  by_cases h : env.callbacks.onNodeFailed && truthyId env <;> simp [h]

@[simp] theorem callNodeFailedCallback_completedNodes (env : EngineEnv)
    (n e : String) (st : EngineState) :
    (callNodeFailedCallback env n e st).completedNodes = st.completedNodes := by
  unfold callNodeFailedCallback
  by_cases h : env.callbacks.onNodeFailed && truthyId env <;> simp [h]

@[simp] theorem callNodeFailedCallback_failedNodes (env : EngineEnv)
    (n e : String) (st : EngineState) :
    (callNodeFailedCallback env n e st).failedNodes = st.failedNodes := by
  unfold callNodeFailedCallback
  by_cases h : env.callbacks.onNodeFailed && truthyId env <;> simp [h]

@[simp] theorem callNodeFailedCallback_nodeResults (env : EngineEnv)
    (n e : String) (st : EngineState) :
    (callNodeFailedCallback env n e st).nodeResults = st.nodeResults := by
  unfold callNodeFailedCallback
  by_cases h : env.callbacks.onNodeFailed && truthyId env <;> simp [h]

@[simp] theorem addUnique_contains (l : List String) (x : String) :
    (addUnique l x).contains x = true := by
  unfold addUnique
  by_cases h : l.contains x = true
  · rw [if_pos h]
    exact h
  · rw [if_neg h]
    simp [List.elem_iff]

@[simp] theorem listLookup_update_self (l : List (String × α)) (k : String)
    (v : α) : listLookup (listUpdate l k v) k = some v := by
  induction l with
  | nil => simp [listUpdate, listLookup, List.find?]
  | cons p rest ih =>
    by_cases h : p.1 == k
    · simp [listUpdate, h, listLookup, List.find?]
    · simp only [listUpdate, h, Bool.false_eq_true, ite_false]
      simp only [listLookup, List.find?, h] at ih ⊢
      exact ih

/-- `_try_trigger_next_nodes` is a no-op for a node that is not in the
completed set: every target along one of its outgoing edges has it as a
prerequisite, so the all-prerequisites check fails and each edge is
passed over. -/
theorem tryTriggerGo_noop (g : EngineGraph) (env : EngineEnv) (u : String)
    (st : EngineState) (hu : st.completedNodes.contains u = false) :
    ∀ l : List TreeEdge, (∀ e ∈ l, e ∈ g.edges ∧ e.from_node = u) →
      tryTriggerGo g env u l st = (st, none) := by
  intro l
  induction l with
  | nil => intro _; rfl
  | cons e rest ih =>
    intro hmem
    obtain ⟨heg, hef⟩ := hmem e (by simp)
    have hpre : checkAllPrerequisitesCompleted g st e.to_node = false := by
      unfold checkAllPrerequisitesCompleted
      have humem : u ∈ predecessorIds g.edges e.to_node := by
        unfold predecessorIds
        refine List.mem_map.mpr ⟨e, ?_, hef⟩
        exact List.mem_filter.mpr ⟨heg, by simp⟩
      rcases hall : (predecessorIds g.edges e.to_node).all
          (fun p => st.completedNodes.contains p) with _ | _
      · rfl
      · have := (List.all_eq_true.mp hall) u humem
        rw [hu] at this
        cases this
    simp only [tryTriggerGo, hpre, Bool.not_false, if_pos]
    exact ih (fun e2 he2 => hmem e2 (by simp [he2]))

/-- `tryTriggerNextNodes` is a no-op for a node outside the completed
set. -/
theorem tryTriggerNextNodes_noop (g : EngineGraph) (env : EngineEnv)
    (u : String) (st : EngineState)
    (hu : st.completedNodes.contains u = false) :
    tryTriggerNextNodes g env u st = (st, none) := by
  unfold tryTriggerNextNodes
  refine tryTriggerGo_noop g env u st hu (outgoingEdges g u) ?_
  intro e he
  have := List.mem_filter.mp he
  exact ⟨this.1, by simpa using this.2⟩

/-- The execution loop on a state whose single running task raised: the
task is marked failed (with the `on_node_failed` emission folded into
`callNodeFailedCallback`), removed, its successors are passed over, and
the loop returns normally. -/
theorem runLoop_singleton_failed (g : EngineGraph) (env : EngineEnv)
    (st : EngineState) (n msg : String) (f : Nat)
    (hrun : st.runningTasks = [(n, Except.error msg)])
    (hncomp : st.completedNodes.contains n = false) :
    runExecutionLoop g env (f + 2) st =
      ({ callNodeFailedCallback env n msg (markNodeFailed st n msg) with
          runningTasks := [] }, none) := by
  obtain ⟨res, comp, fail, run, tr⟩ := st
  simp only at hrun hncomp
  subst hrun
  show runExecutionLoop g env (f + 1 + 1) _ = _
  rw [runExecutionLoop]
  simp only [List.isEmpty_cons, Bool.false_eq_true, ite_false,
    List.foldl_cons, List.foldl_nil, List.map_cons, List.map_nil,
    processFinishedTask, triggerPhase, callNodeFailedCallback_runningTasks,
    markNodeFailed_runningTasks, List.filter_cons, bne_self_eq_false,
    Bool.false_eq_true, ite_false, List.filter_nil]
  rw [tryTriggerNextNodes_noop g env n _ (by simpa using hncomp)]
  simp only [triggerPhase]
  rw [runExecutionLoop]
  rfl

/-- C7, as the code actually behaves: (1) when the first START node's
executor raises, the exception propagates out of `execute_workflow`
uncaught — no summary; (2) an exception delivered by a task the
execution loop awaits *is* captured as that node's failure: the loop
returns normally (no propagated exception), the node lands in
`failed_nodes`, and `on_node_failed` is emitted when the callback is
configured and the execution id truthy. -/
theorem node_failure_isolation_amended :
    (∀ (g : EngineGraph) (env : EngineEnv) (s : String) (rest : List String)
      (m : String),
      (g.nodes.filter (fun p => p.2.node_type = NodeType.START)).map Prod.fst
        = s :: rest →
      env.nodeExec s {} = .error m →
      (executeWorkflow g env).2 = .error m) ∧
    (∀ (g : EngineGraph) (env : EngineEnv) (st : EngineState)
      (n msg : String) (f : Nat),
      st.runningTasks = [(n, Except.error msg)] →
      st.completedNodes.contains n = false →
      (runExecutionLoop g env (f + 2) st).2 = none ∧
      (runExecutionLoop g env (f + 2) st).1.failedNodes.contains n = true ∧
      ((env.callbacks.onNodeFailed && truthyId env) = true →
        TraceEvent.nodeFailed (execIdVal env) n msg ∈
          (runExecutionLoop g env (f + 2) st).1.trace)) := by
  constructor
  · intro g env s rest m hstart hexec
    simp only [executeWorkflow]
    rw [hstart]
    simp only [List.isEmpty_cons, Bool.false_eq_true, ite_false]
    simp only [startPhase]
    rw [hexec]
  · intro g env st n msg f hrun hncomp
    rw [runLoop_singleton_failed g env st n msg f hrun hncomp]
    refine ⟨rfl, by simp [List.elem_iff.mp (addUnique_contains st.failedNodes n)], ?_⟩
    intro hguard
    show TraceEvent.nodeFailed (execIdVal env) n msg ∈
      (callNodeFailedCallback env n msg (markNodeFailed st n msg)).trace
    unfold callNodeFailedCallback
    rw [if_pos hguard]
    simp

/-- An environment with all four callbacks provided and execution id 7. -/
def envCbs : EngineEnv :=
  { nodeExec := stubExec, oracle := noRegexOracle,
    callbacks := ⟨true, true, true, true⟩, currentExecutionId := some 7 }

/-- A loop state holding one running task that raised `"x"`. -/
def stOneFailedTask : EngineState :=
  { nodeResults := [], completedNodes := [], failedNodes := [],
    runningTasks := [("a", Except.error "x")], trace := [] }

/-- Witness for C7's amended statement: the START part at `gSingle` with
the throwing executor, and the loop part at a concrete one-task state,
with the callback hypothesis also discharged. -/
theorem node_failure_isolation_amended_witness :
    (executeWorkflow gSingle { envPlain with nodeExec := throwExec }).2 =
      .error "boom" ∧
    (runExecutionLoop gSingle envCbs 2 stOneFailedTask).2 = none ∧
    (runExecutionLoop gSingle envCbs 2 stOneFailedTask).1.failedNodes.contains
      "a" = true ∧
    TraceEvent.nodeFailed 7 "a" "x" ∈
      (runExecutionLoop gSingle envCbs 2 stOneFailedTask).1.trace := by
  obtain ⟨h1, h2⟩ := node_failure_isolation_amended
  obtain ⟨ha, hb, hc⟩ :=
    h2 gSingle envCbs stOneFailedTask "a" "x" 0 rfl rfl
  exact ⟨h1 gSingle { envPlain with nodeExec := throwExec } "s" [] "boom"
    rfl rfl, ha, hb, hc rfl⟩

/-- C9: a node whose task raised gets `"ERROR: " ++ <text>` recorded in
`node_results` under its id by `_mark_node_failed`, the loop completes
normally, and the final summary's `results` field is exactly the
`node_results` map — failures sit beside successful outputs
distinguishable only by that string prefix (the summary carries no other
per-node marker). -/
theorem failed_node_error_text_in_results :
    (∀ (g : EngineGraph) (env : EngineEnv) (st : EngineState)
      (n msg : String) (f : Nat),
      st.runningTasks = [(n, Except.error msg)] →
      st.completedNodes.contains n = false →
      listLookup (runExecutionLoop g env (f + 2) st).1.nodeResults n =
        some ("ERROR: " ++ msg) ∧
      (runExecutionLoop g env (f + 2) st).2 = none) ∧
    (∀ (g : EngineGraph) (st : EngineState),
      (mkSummary g st).results = st.nodeResults) := by
  constructor
  · intro g env st n msg f hrun hncomp
    rw [runLoop_singleton_failed g env st n msg f hrun hncomp]
    constructor
    · show listLookup
        (callNodeFailedCallback env n msg (markNodeFailed st n msg)).nodeResults
        n = some ("ERROR: " ++ msg)
      simp
    · rfl
  · intro g st
    rfl

/-- A loop state holding one running task that raised `"oops"`. -/
def stOtherFailedTask : EngineState :=
  { nodeResults := [("s", "out-s")], completedNodes := ["s"],
    failedNodes := [], runningTasks := [("b", Except.error "oops")],
    trace := [] }

/-- Witness for C9 at a concrete state: the failed task's entry is the
prefixed error text, delivered through the summary untouched. -/
theorem failed_node_error_text_in_results_witness :
    listLookup (runExecutionLoop gSingle envPlain 3 stOtherFailedTask).1.nodeResults
      "b" = some "ERROR: oops" ∧
    (runExecutionLoop gSingle envPlain 3 stOtherFailedTask).2 = none ∧
    (mkSummary gSingle stOtherFailedTask).results =
      stOtherFailedTask.nodeResults := by
  obtain ⟨h1, h2⟩ := failed_node_error_text_in_results
  obtain ⟨ha, hb⟩ :=
    h1 gSingle envPlain stOtherFailedTask "b" "oops" 1 rfl rfl
  exact ⟨ha, hb, h2 gSingle stOtherFailedTask⟩

/-- The callback key that guards a given trace event. -/
def callbackKeyFor (env : EngineEnv) : TraceEvent → Bool
  | .executionStart _ _ => env.callbacks.onExecutionStart
  | .nodeCompleted _ _ _ => env.callbacks.onNodeCompleted
  | .nodeFailed _ _ _ => env.callbacks.onNodeFailed
  | .executionFinished _ _ => env.callbacks.onExecutionFinished

/-- Between two states, the trace only grows, and only by events whose
callback key is present while the execution id is truthy. -/
def TraceExtend (env : EngineEnv) (st st2 : EngineState) : Prop :=
  ∀ ev, ev ∈ st2.trace →
    ev ∈ st.trace ∨ (truthyId env = true ∧ callbackKeyFor env ev = true)

theorem traceExtend_refl (env : EngineEnv) (st : EngineState) :
    TraceExtend env st st := fun _ h => Or.inl h

theorem traceExtend_trans {env : EngineEnv} {st1 st2 st3 : EngineState}
    (h12 : TraceExtend env st1 st2) (h23 : TraceExtend env st2 st3) :
    TraceExtend env st1 st3 := by
  intro ev hev
  rcases h23 ev hev with h | h
  · exact h12 ev h
  · exact Or.inr h

theorem traceExtend_of_trace_eq {env : EngineEnv} {st1 st2 : EngineState}
    (h : st2.trace = st1.trace) : TraceExtend env st1 st2 := by
  intro ev hev
  rw [h] at hev
  exact Or.inl hev

/-- `_try_trigger_next_nodes` never emits a callback. -/
theorem tryTriggerGo_trace (g : EngineGraph) (env : EngineEnv) (u : String) :
    ∀ (l : List TreeEdge) (st : EngineState),
      (tryTriggerGo g env u l st).1.trace = st.trace := by
  intro l
  induction l with
  | nil => intro st; rfl
  | cons e rest ih =>
    intro st
    simp only [tryTriggerGo]
    by_cases hpre : checkAllPrerequisitesCompleted g st e.to_node
    · simp only [hpre, Bool.not_true, Bool.false_eq_true, ite_false]
      cases e.condition with
      | none =>
        simp only
        by_cases hdup : ((st.runningTasks.map Prod.fst).contains e.to_node ||
            st.completedNodes.contains e.to_node) = true
        · simp only [hdup, ite_true]
          exact ih st
        · simp only [hdup, Bool.false_eq_true, ite_false, prepareNodeInput]
      | some c =>
        simp only
        cases listLookup st.nodeResults u with
        | none => rfl
        | some outp =>
          simp only
          by_cases hcond : c.check env.oracle outp = true
          · simp only [hcond, ite_true]
            by_cases hdup : ((st.runningTasks.map Prod.fst).contains e.to_node ||
                st.completedNodes.contains e.to_node) = true
            · simp only [hdup, ite_true]
              exact ih st
            · simp only [hdup, Bool.false_eq_true, ite_false, prepareNodeInput]
          · have hcond2 : c.check env.oracle outp = false := by
              cases hc2 : c.check env.oracle outp
              · rfl
              · exact absurd hc2 hcond
            simp only [hcond2, Bool.false_eq_true, ite_false]
            exact ih st
    · have hpre2 : checkAllPrerequisitesCompleted g st e.to_node = false := by
        cases hp2 : checkAllPrerequisitesCompleted g st e.to_node
        · rfl
        · exact absurd hp2 hpre
      simp only [hpre2, Bool.not_false, ite_true]
      exact ih st

/-- The delete-and-trigger phase never emits a callback. -/
theorem triggerPhase_trace (g : EngineGraph) (env : EngineEnv) :
    ∀ (l : List String) (st : EngineState),
      (triggerPhase g env l st).1.trace = st.trace := by
  intro l
  induction l with
  | nil => intro st; rfl
  | cons n ns ih =>
    intro st
    simp only [triggerPhase]
    cases htr : tryTriggerNextNodes g env n
        { st with runningTasks := st.runningTasks.filter (fun p => p.1 != n) } with
    | mk st2 err =>
      have htrace : st2.trace = st.trace := by
        have := tryTriggerGo_trace g env n (outgoingEdges g n)
          { st with runningTasks := st.runningTasks.filter (fun p => p.1 != n) }
        rw [show (tryTriggerGo g env n (outgoingEdges g n)
          { st with runningTasks := st.runningTasks.filter (fun p => p.1 != n) })
            = (st2, err) from htr] at this
        exact this
      cases err with
      | none =>
        simp only
        rw [ih st2, htrace]
      | some e => exact htrace

theorem callNodeCompletedCallback_extend (env : EngineEnv) (n r : String)
    (st : EngineState) :
    TraceExtend env st (callNodeCompletedCallback env n r st) := by
  intro ev hev
  unfold callNodeCompletedCallback at hev
  by_cases h : (env.callbacks.onNodeCompleted && truthyId env) = true
  · rw [if_pos h] at hev
    simp only [List.mem_append, List.mem_singleton] at hev
    rcases hev with hev | hev
    · exact Or.inl hev
    · subst hev
      obtain ⟨hk, ht⟩ := Bool.and_eq_true_iff.mp h
      exact Or.inr ⟨ht, hk⟩
  · rw [if_neg h] at hev
    exact Or.inl hev

theorem callNodeFailedCallback_extend (env : EngineEnv) (n e : String)
    (st : EngineState) :
    TraceExtend env st (callNodeFailedCallback env n e st) := by
  intro ev hev
  unfold callNodeFailedCallback at hev
  by_cases h : (env.callbacks.onNodeFailed && truthyId env) = true
  · rw [if_pos h] at hev
    simp only [List.mem_append, List.mem_singleton] at hev
    rcases hev with hev | hev
    · exact Or.inl hev
    · subst hev
      obtain ⟨hk, ht⟩ := Bool.and_eq_true_iff.mp h
      exact Or.inr ⟨ht, hk⟩
  · rw [if_neg h] at hev
    exact Or.inl hev

theorem callExecutionStartCallback_extend (wid : String) (env : EngineEnv)
    (st : EngineState) :
    TraceExtend env st (callExecutionStartCallback wid env st) := by
  intro ev hev
  unfold callExecutionStartCallback at hev
  by_cases h : (env.callbacks.onExecutionStart && truthyId env) = true
  · rw [if_pos h] at hev
    simp only [List.mem_append, List.mem_singleton] at hev
    rcases hev with hev | hev
    · exact Or.inl hev
    · subst hev
      obtain ⟨hk, ht⟩ := Bool.and_eq_true_iff.mp h
      exact Or.inr ⟨ht, hk⟩
  · rw [if_neg h] at hev
    exact Or.inl hev

theorem callExecutionFinishedCallback_extend (env : EngineEnv)
    (summary : ExecutionSummary) (st : EngineState) :
    TraceExtend env st (callExecutionFinishedCallback env summary st) := by
  intro ev hev
  unfold callExecutionFinishedCallback at hev
  by_cases h : (env.callbacks.onExecutionFinished && truthyId env) = true
  · rw [if_pos h] at hev
    simp only [List.mem_append, List.mem_singleton] at hev
    rcases hev with hev | hev
    · exact Or.inl hev
    · subst hev
      obtain ⟨hk, ht⟩ := Bool.and_eq_true_iff.mp h
      exact Or.inr ⟨ht, hk⟩
  · rw [if_neg h] at hev
    exact Or.inl hev

theorem processFinishedTask_extend (env : EngineEnv) (st : EngineState)
    (n : String) (r : Except String String) :
    TraceExtend env st (processFinishedTask env st n r) := by
  cases r with
  | ok v =>
    have h1 : (markNodeCompleted st n v).trace = st.trace := rfl
    exact traceExtend_trans (traceExtend_of_trace_eq h1)
      (callNodeCompletedCallback_extend env n v (markNodeCompleted st n v))
  | error e =>
    have h1 : (markNodeFailed st n e).trace = st.trace := rfl
    exact traceExtend_trans (traceExtend_of_trace_eq h1)
      (callNodeFailedCallback_extend env n e (markNodeFailed st n e))

theorem foldl_processFinishedTask_extend (env : EngineEnv) :
    ∀ (l : List (String × Except String String)) (st : EngineState),
      TraceExtend env st
        (l.foldl (fun s p => processFinishedTask env s p.1 p.2) st) := by
  intro l
  induction l with
  | nil => intro st; exact traceExtend_refl env st
  | cons p rest ih =>
    intro st
    simp only [List.foldl_cons]
    exact traceExtend_trans (processFinishedTask_extend env st p.1 p.2)
      (ih (processFinishedTask env st p.1 p.2))

theorem runExecutionLoop_extend (g : EngineGraph) (env : EngineEnv) :
    ∀ (f : Nat) (st : EngineState),
      TraceExtend env st (runExecutionLoop g env f st).1 := by
  intro f
  induction f with
  | zero => intro st; exact traceExtend_refl env st
  | succ f ih =>
    intro st
    simp only [runExecutionLoop]
    by_cases hemp : st.runningTasks.isEmpty = true
    · simp only [hemp, ite_true]
      exact traceExtend_refl env st
    · simp only [hemp, Bool.false_eq_true, ite_false]
      set st1 := st.runningTasks.foldl
        (fun s p => processFinishedTask env s p.1 p.2) st with hst1
      cases htr : triggerPhase g env (st.runningTasks.map Prod.fst) st1 with
      | mk st2 err =>
        have hex1 : TraceExtend env st st1 :=
          foldl_processFinishedTask_extend env st.runningTasks st
        have hex2 : TraceExtend env st1 st2 := by
          refine traceExtend_of_trace_eq ?_
          have := triggerPhase_trace g env (st.runningTasks.map Prod.fst) st1
          rw [htr] at this
          exact this
        cases err with
        | none =>
          simp only
          exact traceExtend_trans (traceExtend_trans hex1 hex2) (ih st2)
        | some e =>
          exact traceExtend_trans hex1 hex2

theorem startPhase_extend (g : EngineGraph) (env : EngineEnv) :
    ∀ (l : List String) (st : EngineState),
      TraceExtend env st (startPhase g env l st).1 := by
  intro l
  induction l with
  | nil => intro st; exact traceExtend_refl env st
  | cons s rest ih =>
    intro st
    simp only [startPhase]
    cases hx : env.nodeExec s {} with
    | error e => exact traceExtend_refl env st
    | ok r =>
      simp only
      set st1 := callNodeCompletedCallback env s r (markNodeCompleted st s r)
        with hst1
      have hex1 : TraceExtend env st st1 := by
        refine traceExtend_trans (traceExtend_of_trace_eq (rfl : (markNodeCompleted st s r).trace = st.trace)) ?_
        exact callNodeCompletedCallback_extend env s r (markNodeCompleted st s r)
      cases htr : tryTriggerNextNodes g env s st1 with
      | mk st2 err =>
        have hex2 : TraceExtend env st1 st2 := by
          refine traceExtend_of_trace_eq ?_
          have := tryTriggerGo_trace g env s (outgoingEdges g s) st1
          rw [show tryTriggerGo g env s (outgoingEdges g s) st1 = (st2, err)
            from htr] at this
          exact this
        cases err with
        | none =>
          simp only
          exact traceExtend_trans (traceExtend_trans hex1 hex2) (ih st2)
        | some e => exact traceExtend_trans hex1 hex2

/-- A full run only ever emits guarded callback events. -/
theorem executeWorkflow_extend (g : EngineGraph) (env : EngineEnv) :
    TraceExtend env initialEngineState (executeWorkflow g env).1 := by
  simp only [executeWorkflow]
  by_cases hse : ((g.nodes.filter (fun p =>
      p.2.node_type = NodeType.START)).map Prod.fst).isEmpty = true
  · simp only [hse, ite_true]
    exact traceExtend_refl env initialEngineState
  · simp only [hse, Bool.false_eq_true, ite_false]
    set st0 := callExecutionStartCallback g.workflow_id env initialEngineState
      with hst0
    have hex0 : TraceExtend env initialEngineState st0 :=
      callExecutionStartCallback_extend g.workflow_id env initialEngineState
    cases hsp : startPhase g env ((g.nodes.filter (fun p =>
        p.2.node_type = NodeType.START)).map Prod.fst) st0 with
    | mk st1 err =>
      have hex1 : TraceExtend env st0 st1 := by
        have := startPhase_extend g env ((g.nodes.filter (fun p =>
          p.2.node_type = NodeType.START)).map Prod.fst) st0
        rw [hsp] at this
        exact this
      cases err with
      | some e => exact traceExtend_trans hex0 hex1
      | none =>
        simp only
        cases hrl : runExecutionLoop g env (g.nodes.length + 1) st1 with
        | mk st2 err2 =>
          have hex2 : TraceExtend env st1 st2 := by
            have := runExecutionLoop_extend g env (g.nodes.length + 1) st1
            rw [hrl] at this
            exact this
          cases err2 with
          | some e => exact traceExtend_trans (traceExtend_trans hex0 hex1) hex2
          | none =>
            simp only
            exact traceExtend_trans (traceExtend_trans (traceExtend_trans
              hex0 hex1) hex2)
              (callExecutionFinishedCallback_extend env (mkSummary g st2) st2)

/-- C10: with no truthy execution id (`current_execution_id` is `None`,
or `0`, which is falsy), `execute_workflow` invokes none of the four
tracking callbacks — the emitted trace is empty even when every callback
is provided; and in general every emitted callback event required both
its key to be present in `tracking_callbacks` and the execution id to be
truthy at that moment. -/
theorem callbacks_gated_on_execution_id :
    (∀ (g : EngineGraph) (env : EngineEnv), truthyId env = false →
      (executeWorkflow g env).1.trace = []) ∧
    (∀ (g : EngineGraph) (env : EngineEnv) (ev : TraceEvent),
      ev ∈ (executeWorkflow g env).1.trace →
      truthyId env = true ∧ callbackKeyFor env ev = true) := by
  have hmem : ∀ (g : EngineGraph) (env : EngineEnv) (ev : TraceEvent),
      ev ∈ (executeWorkflow g env).1.trace →
      truthyId env = true ∧ callbackKeyFor env ev = true := by
    intro g env ev hev
    rcases executeWorkflow_extend g env ev hev with h | h
    · cases h
    · exact h
  constructor
  · intro g env hfalsy
    refine List.eq_nil_iff_forall_not_mem.mpr ?_
    intro ev hev
    have := (hmem g env ev hev).1
    rw [hfalsy] at this
    cases this
  · exact hmem

/-- Witness for C10: with all four callbacks provided but the execution
id set to the falsy `0`, a run of `gSingle` emits nothing; with id `7`
the emitted `executionStart` event has its key present and the id truthy. -/
theorem callbacks_gated_on_execution_id_witness :
    truthyId { envCbs with currentExecutionId := some 0 } = false ∧
    (executeWorkflow gSingle
      { envCbs with currentExecutionId := some 0 }).1.trace = [] ∧
    (truthyId envCbs = true ∧
      callbackKeyFor envCbs (TraceEvent.executionStart "w4" 7) = true) := by
  obtain ⟨h1, h2⟩ := callbacks_gated_on_execution_id
  refine ⟨rfl, h1 gSingle { envCbs with currentExecutionId := some 0 } rfl, ?_⟩
  refine h2 gSingle envCbs (TraceEvent.executionStart "w4" 7) ?_
  simp [executeWorkflow, startPhase, envCbs, gSingle, stubExec, mkNode,
    callExecutionStartCallback, callNodeCompletedCallback,
    callExecutionFinishedCallback, runExecutionLoop, truthyId, execIdVal,
    markNodeCompleted, tryTriggerNextNodes, tryTriggerGo, outgoingEdges,
    initialEngineState, mkSummary]
